import Mathlib

/-!
# Character input of readline (`input.c`)

A shallow embedding of the typeahead buffer, the key reader, the blocking byte
reader, the typeahead gatherer and the multibyte assembler of `input.c`,
followed by the properties proved about them.

C `int` values are `Int`; the values met here (indices below 512, bytes, small
sentinels) are far from the overflow range.  The contents of an `unsigned char`
cell are the stored `int` reduced modulo 256.
-/

namespace Readline

/-! ## Constants -/

/-- The `EOF` of `<stdio.h>`. -/
def EOF : Int := -1

/-- Modelled from the spec: the read-error value `READERR` of `rlprivate.h`
(a header absent from the sources at hand), a distinguished value that is
neither a byte nor the end-of-stream value; readline uses `-2`. -/
def READERR : Int := -2

/-- Modelled from the spec: the newline byte `NEWLINE` of `chardefs.h`, which
is the character `'\n'`. -/
def NEWLINE : Int := 10

/-- Modelled from the spec: the return byte `RETURN` of `chardefs.h`, which is
control-M. -/
def RETURN : Int := 13

/-- The number of cells of `ibuffer`: `static unsigned char ibuffer[512]`. -/
def ibuffer_size : Int := 512

/-- The source's `static int ibuffer_len = sizeof (ibuffer) - 1`. -/
def ibuffer_len : Int := ibuffer_size - 1

/-- The `EINTR` of `<errno.h>` (Linux value). -/
def EINTR : Int := 4

/-- The `EIO` of `<errno.h>` (Linux value). -/
def EIO : Int := 5

/-- The `ENOTTY` of `<errno.h>` (Linux value). -/
def ENOTTY : Int := 25

/-- The `EAGAIN` of `<errno.h>` (Linux value). -/
def EAGAIN : Int := 11

/-- The `EWOULDBLOCK` of `<errno.h>` (on Linux the same number as `EAGAIN`). -/
def EWOULDBLOCK : Int := 11

/-- The `SIGHUP` of `<signal.h>` (Linux value, as for the signals below). -/
def SIGHUP : Int := 1

/-- The `SIGINT` of `<signal.h>`. -/
def SIGINT : Int := 2

/-- The `SIGQUIT` of `<signal.h>`. -/
def SIGQUIT : Int := 3

/-- The `SIGALRM` of `<signal.h>`. -/
def SIGALRM : Int := 14

/-- The `SIGTERM` of `<signal.h>`. -/
def SIGTERM : Int := 15

/-- The `SIGTSTP` of `<signal.h>`. -/
def SIGTSTP : Int := 20

/-- The `SIGVTALRM` of `<signal.h>`. -/
def SIGVTALRM : Int := 26

/-- The `SIGWINCH` of `<signal.h>`. -/
def SIGWINCH : Int := 28

/-- Modelled from the spec: the keymap entry type `ISFUNC` of `keymaps.h`
(absent from the sources at hand), the tag of an entry bound to a function. -/
def ISFUNC : Int := 0

/-! ## Session state -/

/-- A call made to a collaborator outside `input.c`, recorded in the order the
calls are made. -/
inductive Call where
  | next_macro_key
  | event_hook
  | getc
  | signal_handler (sig : Int)
  | select
  | ioctl_fionread
  | fcntl_getfl
  | fcntl_setfl
  | read
  | bracketed_read_key
  | insert_text (string : List Int)
  | unset_nodelay_mode
  | signal_event_hook
  deriving DecidableEq, Repr

/-- The mutable state `input.c` works on: its own statics (`pop_index`,
`push_index`, `ibuffer`), the readline globals it reads and writes, the record
of collaborator calls, and the state `world` of everything outside (input
stream, active macro, terminal), which only collaborators interpret.

Modelled from the spec: the flags of `rl_readline_state` are kept as one
boolean each (`RL_SETSTATE`, `RL_UNSETSTATE`, `RL_ISSTATE` and the `RL_STATE_*`
masks are declared in `readline.h`, which is absent from the sources at hand;
the spec describes them as boolean-like session flags). -/
structure Session (Ω : Type) where
  pop_index : Int
  push_index : Int
  ibuffer : Int → Int
  rl_pending_input : Int
  state_inputpending : Bool
  state_readcmd : Bool
  rl_done : Int
  rl_event_hook : Bool
  _rl_caught_signal : Int
  errno : Int
  calls : List Call
  world : Ω

variable {Ω : Type}

/-! ## Character input buffering -/

/-- The source's `#define any_typein (push_index != pop_index)`, as returned by
`_rl_any_typein`: 1 when the comparison holds, 0 otherwise. -/
def _rl_any_typein (s : Session Ω) : Int :=
  if s.push_index ≠ s.pop_index then 1 else 0

/-- The source's `_rl_pushed_input_available`. -/
def _rl_pushed_input_available (s : Session Ω) : Int :=
  if s.push_index ≠ s.pop_index then 1 else 0

/-- The source's `ibuffer_space`: the room left for stuffing characters. -/
def ibuffer_space (s : Session Ω) : Int :=
  if s.pop_index > s.push_index then
    s.pop_index - s.push_index - 1
  else
    ibuffer_len - (s.push_index - s.pop_index)

/-- The source's `rl_get_char (int *key)`: the result is
`(return value, *key afterwards, session afterwards)`; `key` is the value
`*key` held before the call. -/
def rl_get_char (s : Session Ω) (key : Int) : Int × Int × Session Ω :=
  if s.push_index = s.pop_index then
    (0, key, s)
  else
    let k := s.ibuffer s.pop_index
    let p := s.pop_index + 1
    let p := if p > ibuffer_len then 0 else p
    (1, k, { s with pop_index := p })

/-- The source's `_rl_unget_char`: stuff `key` into the front of the buffer. -/
def _rl_unget_char (s : Session Ω) (key : Int) : Int × Session Ω :=
  if ibuffer_space s ≠ 0 then
    let p := s.pop_index - 1
    let p := if p < 0 then ibuffer_len else p
    (1, { s with pop_index := p, ibuffer := Function.update s.ibuffer p (key % 256) })
  else
    (0, s)

/-- The source's `rl_stuff_char`: add `key` at the back of the buffer; an
`EOF` key is stored as a newline and recorded as pending input. -/
def rl_stuff_char (s : Session Ω) (key : Int) : Int × Session Ω :=
  if ibuffer_space s = 0 then
    (0, s)
  else
    let key1 := if key = EOF then NEWLINE else key
    let s1 : Session Ω :=
      if key = EOF then { s with rl_pending_input := EOF, state_inputpending := true } else s
    let q := s1.push_index + 1
    let q := if q > ibuffer_len then 0 else q
    (1, { s1 with push_index := q,
                  ibuffer := Function.update s1.ibuffer s1.push_index (key1 % 256) })

/-- The source's `rl_execute_next`: make `c` the next command to be executed. -/
def rl_execute_next (s : Session Ω) (c : Int) : Int × Session Ω :=
  (0, { s with rl_pending_input := c, state_inputpending := true })

/-- The source's `rl_clear_pending_input`. -/
def rl_clear_pending_input (s : Session Ω) : Int × Session Ω :=
  (0, { s with rl_pending_input := 0, state_inputpending := false })

/-! ## Reading the buffer as a queue -/

/-- Both indices address a cell of `ibuffer`. -/
def IndicesInRange (s : Session Ω) : Prop :=
  0 ≤ s.pop_index ∧ s.pop_index ≤ ibuffer_len ∧ 0 ≤ s.push_index ∧ s.push_index ≤ ibuffer_len

instance (s : Session Ω) : Decidable (IndicesInRange s) :=
  inferInstanceAs (Decidable (0 ≤ s.pop_index ∧ s.pop_index ≤ ibuffer_len ∧
    0 ≤ s.push_index ∧ s.push_index ≤ ibuffer_len))

/-- The number of queued bytes, `(push_index - pop_index) mod 512`. -/
def queuedCount (s : Session Ω) : Int :=
  (s.push_index - s.pop_index) % ibuffer_size

/-- The queued bytes from the front (`pop_index`) to the back (`push_index`),
following the indices around the end of the array. -/
def queued (s : Session Ω) : List Int :=
  (List.range (queuedCount s).toNat).map
    (fun (i : Nat) => s.ibuffer ((s.pop_index + (i : Int)) % ibuffer_size))

/-- A session with an empty buffer at index 0, nothing pending, no hook and no
signal; `mem` is the content of the array and `w` the outside world. -/
def emptySession (mem : Int → Int) (w : Ω) : Session Ω :=
  { pop_index := 0, push_index := 0, ibuffer := mem, rl_pending_input := 0,
    state_inputpending := false, state_readcmd := false, rl_done := 0,
    rl_event_hook := false, _rl_caught_signal := 0, errno := 0, calls := [], world := w }


/-! ## Collaborators -/

/-- How a call of a function of `input.c` ends: it returns a value, or control
leaves it through a non-local exit of the signal handler, or the model ran out
of the fuel that bounds its loops. -/
inductive Outcome (α : Type) where
  | ret (a : α)
  | exited
  | out_of_fuel

/-- The value a call returned, if it returned. -/
def Outcome.toOption {α : Type} : Outcome α → Option α
  | .ret a => some a
  | .exited => none
  | .out_of_fuel => none

/-- An entry of `_rl_keymap`: its `type` tag and the address of its
`function`. -/
structure KEYMAP_ENTRY where
  type : Int
  function : Nat
  deriving DecidableEq, Repr

/-- The collaborators `input.c` calls but does not define, each as a function
of the session it runs in: the macro source, the event hook, the byte reader
installed in `rl_getc_function`, the signal handler run by `RL_CHECK_SIGNALS`
(`none` when it leaves by a non-local exit), the system calls of
`rl_gather_tyi`, the bracketed key reader, the keymap and the text-insertion
sink.  `rl_insert` is the address of the function `rl_insert`; the boolean
given to `fcntl_setfl` tells whether `O_NDELAY` is or-ed into the flags. -/
structure Env (Ω : Type) where
  _rl_next_macro_key : Session Ω → Int × Session Ω
  event_hook : Session Ω → Session Ω
  rl_getc_function : Session Ω → Int × Session Ω
  _rl_signal_handler : Int → Session Ω → Option (Session Ω)
  select : Session Ω → Int × Session Ω
  ioctl_fionread : Session Ω → Int × Int × Session Ω
  fcntl_getfl : Session Ω → Int × Session Ω
  fcntl_setfl : Int → Bool → Session Ω → Session Ω
  read : Session Ω → Int × Int × Session Ω
  _rl_bracketed_read_key : Session Ω → Int × Session Ω
  _rl_keymap : Int → KEYMAP_ENTRY
  rl_insert : Nat
  rl_insert_text : List Int → Session Ω → Session Ω

/-- The session `t` a collaborator left, with the call `c` appended to the
record of calls that `s` held before the call. -/
def logged (s : Session Ω) (c : Call) (t : Session Ω) : Session Ω :=
  { t with calls := s.calls ++ [c] }

/-- Modelled from the spec: the macro `RL_CHECK_SIGNALS` of `rlprivate.h`
(absent from the sources at hand): if a signal is recorded in
`_rl_caught_signal`, run the signal handler on it, which may not return. -/
def RL_CHECK_SIGNALS (env : Env Ω) (s : Session Ω) : Option (Session Ω) :=
  if s._rl_caught_signal ≠ 0 then
    match env._rl_signal_handler s._rl_caught_signal s with
    | none => none
    | some t => some (logged s (.signal_handler s._rl_caught_signal) t)
  else
    some s

/-- The call `_rl_next_macro_key ()`. -/
def call_next_macro_key (env : Env Ω) (s : Session Ω) : Int × Session Ω :=
  ((env._rl_next_macro_key s).1, logged s .next_macro_key (env._rl_next_macro_key s).2)

/-- The call `(*rl_getc_function) (rl_instream)`. -/
def call_getc (env : Env Ω) (s : Session Ω) : Int × Session Ω :=
  ((env.rl_getc_function s).1, logged s .getc (env.rl_getc_function s).2)

/-- The call `(*rl_event_hook) ()`. -/
def call_event_hook (env : Env Ω) (s : Session Ω) : Session Ω :=
  logged s .event_hook (env.event_hook s)

/-- The call `_rl_bracketed_read_key ()`. -/
def call_bracketed_read_key (env : Env Ω) (s : Session Ω) : Int × Session Ω :=
  ((env._rl_bracketed_read_key s).1,
    logged s .bracketed_read_key (env._rl_bracketed_read_key s).2)

/-- The call `rl_insert_text (string)`. -/
def call_insert_text (env : Env Ω) (string : List Int) (s : Session Ω) : Session Ω :=
  logged s (.insert_text string) (env.rl_insert_text string s)

/-! ## Gathering typeahead -/

/-- The loop `while (chars_avail--)` of `rl_gather_tyi`, `n` being the value
of `chars_avail` on entry (never negative there when the indices are in
range): check signals, read a key, stuff it, and stop when the buffer rejects
it or the key ends a line. -/
def gather_loop (env : Env Ω) : Nat → Session Ω → Outcome (Session Ω)
  | 0, s => .ret s
  | n + 1, s =>
    match RL_CHECK_SIGNALS env s with
    | none => .exited
    | some s1 =>
      let k := (call_getc env s1).1
      let s2 := (call_getc env s1).2
      if (rl_stuff_char s2 k).1 = 0 then .ret (rl_stuff_char s2 k).2
      else if k = NEWLINE ∨ k = RETURN then .ret (rl_stuff_char s2 k).2
      else gather_loop env n (rl_stuff_char s2 k).2

/-- The part of `rl_gather_tyi` after the probes: `chars_avail` and `result`
are known, `input` is the byte the non-blocking probe read. -/
def gather_tail (env : Env Ω) (s : Session Ω) (result chars_avail input : Int) :
    Outcome (Int × Session Ω) :=
  if chars_avail ≤ 0 then .ret (0, s)
  else
    let tem := ibuffer_space s
    let chars_avail := if chars_avail > tem then tem else chars_avail
    let chars_avail := if tem < ibuffer_len then 0 else chars_avail
    if result ≠ -1 then
      match gather_loop env chars_avail.toNat s with
      | .ret t => .ret (1, t)
      | .exited => .exited
      | .out_of_fuel => .out_of_fuel
    else if chars_avail ≠ 0 then .ret (1, (rl_stuff_char s input).2)
    else .ret (1, s)

/-- The source's POSIX `rl_gather_tyi`, built with `HAVE_SELECT`, `FIONREAD`
and `O_NDELAY`.  `select` yields its result; `ioctl_fionread` yields the result
of the `ioctl` and the value it leaves in `chars_avail`; `read` yields its
result and the byte it leaves in `input`; each collaborator sets `errno` in the
session it returns. -/
def rl_gather_tyi (env : Env Ω) (s : Session Ω) : Outcome (Int × Session Ω) :=
  let sel := env.select s
  let s1 := logged s .select sel.2
  if sel.1 ≤ 0 then .ret (0, s1)
  else
    let s2 : Session Ω := { s1 with errno := 0 }
    let io := env.ioctl_fionread s2
    let s3 := logged s2 .ioctl_fionread io.2.2
    let result := io.1
    if result = -1 ∧ s3.errno = EIO then .ret (-1, s3)
    else
      let chars_avail := if result = -1 then 0 else io.2.1
      if result = -1 then
        let fl := env.fcntl_getfl s3
        let s4 := logged s3 .fcntl_getfl fl.2
        let s5 := logged s4 .fcntl_setfl (env.fcntl_setfl fl.1 true s4)
        let rd := env.read s5
        let s6 := logged s5 .read rd.2.2
        let chars_avail := rd.1
        let input := rd.2.1
        let s7 := logged s6 .fcntl_setfl (env.fcntl_setfl fl.1 false s6)
        if chars_avail = -1 ∧ s7.errno = EAGAIN then .ret (0, s7)
        else if chars_avail = -1 ∧ s7.errno = EIO then .ret (-1, s7)
        else if chars_avail = 0 then .ret (0, (rl_stuff_char s7 EOF).2)
        else gather_tail env s7 result chars_avail input
      else gather_tail env s3 result chars_avail 0

/-- The session in which `rl_gather_tyi` makes its `FIONREAD` query: the one
`select` left, with `errno` set to 0. -/
def gather_before_ioctl (env : Env Ω) (s : Session Ω) : Session Ω :=
  { logged s .select (env.select s).2 with errno := 0 }

/-- The session of `rl_gather_tyi` after its `FIONREAD` query. -/
def gather_after_ioctl (env : Env Ω) (s : Session Ω) : Session Ω :=
  logged (gather_before_ioctl env s) .ioctl_fionread
    (env.ioctl_fionread (gather_before_ioctl env s)).2.2

/-- The session in which `rl_gather_tyi` makes its non-blocking probe `read`:
after the `FIONREAD` query, `fcntl (tty, F_GETFL, 0)` and the `fcntl` that sets
`O_NDELAY`. -/
def gather_before_read (env : Env Ω) (s : Session Ω) : Session Ω :=
  logged (logged (gather_after_ioctl env s) .fcntl_getfl
      (env.fcntl_getfl (gather_after_ioctl env s)).2) .fcntl_setfl
    (env.fcntl_setfl (env.fcntl_getfl (gather_after_ioctl env s)).1 true
      (logged (gather_after_ioctl env s) .fcntl_getfl
        (env.fcntl_getfl (gather_after_ioctl env s)).2))

/-- The session of `rl_gather_tyi` after the probe `read` and the `fcntl` that
restores the flags. -/
def gather_after_probe (env : Env Ω) (s : Session Ω) : Session Ω :=
  logged (logged (gather_before_read env s) .read (env.read (gather_before_read env s)).2.2)
    .fcntl_setfl
    (env.fcntl_setfl (env.fcntl_getfl (gather_after_ioctl env s)).1 false
      (logged (gather_before_read env s) .read (env.read (gather_before_read env s)).2.2))

/-! ## Inserting typeahead -/

/-- The test of the loop of `_rl_insert_typein` on a key: its keymap entry is
a function entry bound to `rl_insert`. -/
def bound_to_insert (env : Env Ω) (key : Int) : Bool :=
  decide ((env._rl_keymap key).type = ISFUNC ∧ (env._rl_keymap key).function = env.rl_insert)

/-- The loop of `_rl_insert_typein`: `key` and `string` are the values of the
locals on entry of a turn, `string` being the bytes stored so far (its length is
the local `i`).  The result is `(t, key, string, session)` when the loop ends. -/
def typein_loop (env : Env Ω) :
    Nat → Session Ω → Int → List Int → Option (Int × Int × List Int × Session Ω)
  | 0, _, _, _ => none
  | fuel + 1, s, key, string =>
    if (rl_get_char s key).1 ≠ 0 ∧ bound_to_insert env (rl_get_char s key).2.1 = true then
      typein_loop env fuel (rl_get_char s key).2.2 (rl_get_char s key).2.1
        (string ++ [(rl_get_char s key).2.1 % 256])
    else
      some ((rl_get_char s key).1, (rl_get_char s key).2.1, string, (rl_get_char s key).2.2)

/-- The source's `xmalloc (ibuffer_len + 1)`: the number of bytes that
`_rl_insert_typein` allocates for `string`. -/
def typein_alloc : Int := ibuffer_len + 1

/-- The C string that starts at the first byte of a NUL-terminated `char`
array: the bytes before the first zero byte.  This is what a function given
the `char *` reads. -/
def c_string (bytes : List Int) : List Int :=
  bytes.takeWhile (fun b => decide (b ≠ 0))

/-- How a call of `_rl_insert_typein` ends: it returns after `rl_insert_text`,
in the session given; or one of its writes into `string` falls at or past the
end of the allocation, from which point the behaviour of the C program is
undefined; or the model ran out of the fuel that bounds its loop. -/
inductive TypeinOutcome (Ω : Type) where
  | inserted (s : Session Ω)
  | out_of_bounds
  | out_of_fuel

/-- The session in which a call of `_rl_insert_typein` returned, if it did. -/
def TypeinOutcome.session : TypeinOutcome Ω → Option (Session Ω)
  | .inserted s => some s
  | .out_of_bounds => none
  | .out_of_fuel => none

/-- The source's `_rl_insert_typein`.  The loop leaves in `string` the bytes
stored by `string[i++] = ...`, at the indices below the length of the list, and
`string[i] = '\0'` writes the terminating NUL at the index equal to that
length: all these writes are inside the `xmalloc (ibuffer_len + 1)` bytes
exactly when that length is below `typein_alloc`.  `rl_insert_text (string)`
receives a `char *`, so what it is given is the C string of these bytes. -/
def _rl_insert_typein (env : Env Ω) (fuel : Nat) (s : Session Ω) (c : Int) :
    TypeinOutcome Ω :=
  match typein_loop env fuel s 0 [c % 256] with
  | none => .out_of_fuel
  | some (t, key, string, s1) =>
    if (string.length : Int) < typein_alloc then
      .inserted (call_insert_text env (c_string string)
        (if t ≠ 0 then (_rl_unget_char s1 key).2 else s1))
    else .out_of_bounds

/-- The indices of `string` that `_rl_insert_typein` writes, in the order of
the writes: `string[i++]` for `c` and for each key the loop accepts, then
`string[i]` for the terminating NUL, `i` being each time the number of bytes
stored so far. -/
def typein_writes (env : Env Ω) (fuel : Nat) (s : Session Ω) (c : Int) : Option (List Nat) :=
  match typein_loop env fuel s 0 [c % 256] with
  | none => none
  | some (_, _, string, _) => some (List.range (string.length + 1))

/-! ## Reading a key -/

/-- The loop `while (rl_event_hook)` of `rl_read_key`; `c` is the value of the
local `c` on entry of an iteration. -/
def read_key_loop (env : Env Ω) : Nat → Session Ω → Int → Outcome (Int × Session Ω)
  | 0, _, _ => .out_of_fuel
  | fuel + 1, s, c =>
    if s.rl_event_hook then
      if (rl_get_char s c).1 ≠ 0 then .ret ((rl_get_char s c).2.1, (rl_get_char s c).2.2)
      else
        match rl_gather_tyi env (rl_get_char s c).2.2 with
        | .exited => .exited
        | .out_of_fuel => .out_of_fuel
        | .ret (r, s1) =>
          if r < 0 then
            .ret (if s1.errno = EIO then (if s1.state_readcmd then READERR else EOF) else 10,
              { s1 with rl_done := 1 })
          else if r > 0 then read_key_loop env fuel s1 (rl_get_char s c).2.1
          else
            match RL_CHECK_SIGNALS env s1 with
            | none => .exited
            | some s2 =>
              if s2.rl_done ≠ 0 then .ret (10, s2)
              else read_key_loop env fuel (call_event_hook env s2) (rl_get_char s c).2.1
    else .ret (c, s)

/-- The source's `rl_read_key`: pending input first, then the macro source,
then the typeahead buffer with the event hook or the byte reader. -/
def rl_read_key (env : Env Ω) (fuel : Nat) (s : Session Ω) : Outcome (Int × Session Ω) :=
  if s.rl_pending_input ≠ 0 then
    .ret (s.rl_pending_input, (rl_clear_pending_input s).2)
  else
    let c := (call_next_macro_key env s).1
    let s1 := (call_next_macro_key env s).2
    if c ≠ 0 then .ret (c % 256, s1)
    else if s1.rl_event_hook then read_key_loop env fuel s1 c
    else
      let g := rl_get_char s1 c
      let r := if g.1 = 0 then call_getc env g.2.2 else (g.2.1, g.2.2)
      match RL_CHECK_SIGNALS env r.2 with
      | none => .exited
      | some s3 => .ret (r.1, s3)

/-! ## The blocking byte reader -/

/-- What one turn of the loop of the POSIX `rl_getc` observes of the outside:
`caught_before` is `_rl_caught_signal` as the `RL_CHECK_SIGNALS` at the top of
the loop reads it and `handler_returns` tells whether the signal handler, when
run there, returns; `pselect_result` is the result of `pselect` (0 in a build
without `HAVE_PSELECT`, where `result` keeps its initial 0); `read_result` and
`c` are the result of `read` and the byte it stored; `errno` is `errno` after
these calls; `unset_nodelay_result` is the result of `sh_unset_nodelay_mode`;
`readcmd` is `RL_ISSTATE (RL_STATE_READCMD)`; `caught_after` is
`_rl_caught_signal` as read at `handle_error`, `handler_returns_after` tells
whether the handler run from there returns, and `signal_event_hook` whether
`rl_signal_event_hook` is installed. -/
structure Attempt where
  caught_before : Int
  handler_returns : Bool
  pselect_result : Int
  read_result : Int
  c : Int
  errno : Int
  unset_nodelay_result : Int
  readcmd : Bool
  caught_after : Int
  handler_returns_after : Bool
  signal_event_hook : Bool
  deriving DecidableEq, Repr

/-- The value of the local `result` after `pselect` and `read`: `read` is
called only when `pselect` did not fail. -/
def Attempt.result (a : Attempt) : Int :=
  if a.pselect_result ≥ 0 then a.read_result else a.pselect_result

/-- The calls recorded up to the tests on `result` in one turn of `rl_getc`:
the signal handler if `RL_CHECK_SIGNALS` found a signal recorded, then `read`
if `pselect` did not fail. -/
def Attempt.logRead (a : Attempt) (log : List Call) : List Call :=
  (if a.caught_before ≠ 0 then log ++ [.signal_handler a.caught_before] else log)
    ++ (if a.pselect_result ≥ 0 then [.read] else [])

/-- Whether the `EINTR` branch of `rl_getc` runs the signal handler: the
recorded signal is one of those whose branch calls `RL_CHECK_SIGNALS ()`
(`SIGINT`, `SIGQUIT`, `SIGTSTP`, `SIGWINCH`, `SIGALRM`, `SIGVTALRM`), and
`RL_CHECK_SIGNALS` finds it recorded. -/
def Attempt.checksAfter (a : Attempt) : Bool :=
  decide ((a.caught_after = SIGINT ∨ a.caught_after = SIGQUIT ∨ a.caught_after = SIGTSTP ∨
    a.caught_after = SIGWINCH ∨ a.caught_after = SIGALRM ∨ a.caught_after = SIGVTALRM)
    ∧ a.caught_after ≠ 0)

/-- The calls recorded by a turn of `rl_getc` that ends in the `EINTR` branch
and goes round the loop again: the handler if it was run, then
`rl_signal_event_hook` if one is installed. -/
def Attempt.logRetry (a : Attempt) (log : List Call) : List Call :=
  (a.logRead log ++ (if a.checksAfter = true then [.signal_handler a.caught_after] else []))
    ++ (if a.signal_event_hook = true then [.signal_event_hook] else [])

/-- The source's POSIX `rl_getc`, one element of the list for each turn of its
`while (1)` loop; `log` collects the collaborator calls.  When the list is used
up the reader is still retrying, which is reported as `out_of_fuel`. -/
def rl_getc : List Attempt → List Call → Outcome (Int × List Call)
  | [], _ => .out_of_fuel
  | a :: rest, log =>
    if a.caught_before ≠ 0 ∧ a.handler_returns = false then .exited
    else if a.result = 1 then .ret (a.c % 256, a.logRead log)
    else if a.result = 0 then .ret (EOF, a.logRead log)
    else if a.errno = EWOULDBLOCK ∨ a.errno = EAGAIN then
      if a.unset_nodelay_result < 0 then .ret (EOF, a.logRead log ++ [.unset_nodelay_mode])
      else rl_getc rest (a.logRead log ++ [.unset_nodelay_mode])
    else if a.errno ≠ EINTR then .ret (if a.readcmd then READERR else EOF, a.logRead log)
    else if a.caught_after = SIGHUP ∨ a.caught_after = SIGTERM then
      .ret (if a.readcmd then READERR else EOF, a.logRead log)
    else if a.checksAfter = true ∧ a.handler_returns_after = false then .exited
    else rl_getc rest (a.logRetry log)

/-- A turn whose single-byte read fails with would-block while no signal is
recorded and the clearing of non-blocking mode succeeds. -/
def Attempt.wouldBlock (a : Attempt) : Bool :=
  decide (a.caught_before = 0 ∧ 0 ≤ a.pselect_result ∧ a.read_result < 0 ∧
    (a.errno = EWOULDBLOCK ∨ a.errno = EAGAIN) ∧ 0 ≤ a.unset_nodelay_result)

/-- A turn whose single-byte read fails with `EINTR` while no signal is
recorded as caught. -/
def Attempt.interrupted (a : Attempt) : Bool :=
  decide (a.caught_before = 0 ∧ 0 ≤ a.pselect_result ∧ a.read_result < 0 ∧
    a.errno = EINTR ∧ a.caught_after = 0)

/-- A turn whose read delivers the one byte `b`, no signal being recorded. -/
def Attempt.delivers (a : Attempt) (b : Int) : Bool :=
  decide (a.caught_before = 0 ∧ 0 ≤ a.pselect_result ∧ a.read_result = 1 ∧
    a.c = b ∧ 0 ≤ b ∧ b ≤ 255)

/-- A turn whose read returns zero bytes, no signal being recorded. -/
def Attempt.endOfStream (a : Attempt) : Bool :=
  decide (a.caught_before = 0 ∧ 0 ≤ a.pselect_result ∧ a.read_result = 0)

/-- A quiet turn in which `read` has the result `r`, stores the byte `c` and
leaves `e` in `errno`. -/
def readTurn (r c e : Int) : Attempt :=
  { caught_before := 0, handler_returns := true, pselect_result := 1, read_result := r,
    c := c, errno := e, unset_nodelay_result := 0, readcmd := false, caught_after := 0,
    handler_returns_after := true, signal_event_hook := false }

/-! ## Reading a multibyte character -/

/-- What `mbrtowc` reports, by the tests `_rl_read_mbchar` makes on its
`size_t` result: `(size_t)(-1)` is an invalid sequence, `(size_t)(-2)` an
incomplete one, 0 the null wide character, and any other value the length of a
complete character. -/
inductive MbResult where
  | invalid
  | incomplete
  | null
  | complete (n : Nat)
  deriving DecidableEq, Repr

/-- The decoder of the C library: `zero` is the `mbstate_t` that `memset` fills
with zeros, and `mbrtowc bytes ps` decodes the bytes stored so far in `mbchar`
from the state `ps`, yielding its report and the state it leaves in `ps`. -/
structure Decoder (σ : Type) where
  zero : σ
  mbrtowc : List Int → σ → MbResult × σ

/-- The loop `while (mb_len < size)` of `_rl_read_mbchar`: the first argument
is `size - mb_len`, `mbchar` holds the units stored so far (its length is
`mb_len`) and `ps` is the decoder state.  The result is
`(mb_len, mbchar, session)`. -/
def read_mbchar_loop {σ : Type} (env : Env Ω) (dec : Decoder σ) (fuel : Nat) :
    Nat → Session Ω → List Int → σ → Outcome (Int × List Int × Session Ω)
  | 0, s, mbchar, _ => .ret (mbchar.length, mbchar, s)
  | n + 1, s, mbchar, ps =>
    match (if mbchar.length = 0 then Outcome.ret (call_bracketed_read_key env s)
           else rl_read_key env fuel s) with
    | .exited => .exited
    | .out_of_fuel => .out_of_fuel
    | .ret (c, s1) =>
      if c < 0 then .ret (mbchar.length, mbchar, s1)
      else
        match (dec.mbrtowc (mbchar ++ [c % 256]) ps).1 with
        | .invalid => .ret ((mbchar ++ [c % 256]).length, mbchar ++ [c % 256], s1)
        | .incomplete => read_mbchar_loop env dec fuel n s1 (mbchar ++ [c % 256]) dec.zero
        | .null => .ret (1, (mbchar ++ [c % 256]).set 0 0, s1)
        | .complete _ => .ret ((mbchar ++ [c % 256]).length, mbchar ++ [c % 256], s1)

/-- The source's `_rl_read_mbchar (mbchar, size)`; `fuel` bounds the event-hook
loop of each `rl_read_key` it calls. -/
def _rl_read_mbchar {σ : Type} (env : Env Ω) (dec : Decoder σ) (fuel : Nat)
    (s : Session Ω) (size : Int) : Outcome (Int × List Int × Session Ω) :=
  read_mbchar_loop env dec fuel size.toNat s [] dec.zero

/-- One key read of `_rl_read_mbchar` made in the session `s` delivers the key
`u` and leaves the session `t`: the read is `_rl_bracketed_read_key ()` when it
is the first one, recorded as a collaborator call, and `rl_read_key ()`
otherwise. -/
def keyRead (env : Env Ω) (fuel : Nat) (first : Bool) (s : Session Ω) (u : Int)
    (t : Session Ω) : Prop :=
  if first = true then
    (env._rl_bracketed_read_key s).1 = u ∧
      t = { (env._rl_bracketed_read_key s).2 with calls := s.calls ++ [.bracketed_read_key] }
  else
    rl_read_key env fuel s = .ret (u, t)

/-- The successive key reads made from the session `s` deliver the keys of
`reads`, each paired with the session its read leaves, every read starting in
the session the one before left. -/
def deliversKeys (env : Env Ω) (fuel : Nat) :
    Bool → Session Ω → List (Int × Session Ω) → Prop
  | _, _, [] => True
  | first, s, (u, t) :: rest => keyRead env fuel first s u t ∧ deliversKeys env fuel false t rest

/-- The session the last of the key reads `reads` left, `s` when there was no
read. -/
def lastSession (s : Session Ω) : List (Int × Session Ω) → Session Ω
  | [] => s
  | (_, t) :: rest => lastSession t rest

/-- What `_rl_read_mbchar` does once `mbrtowc` has reported `r` on the units
`mbchar`, read up to the session `t`, with `n` turns of the loop left: it
returns the number of units for an invalid sequence or a complete character, 1
with `mbchar[0] = 0` for a null character, and goes round the loop again for an
incomplete sequence. -/
def mbFinish {σ : Type} (env : Env Ω) (dec : Decoder σ) (fuel : Nat) (r : MbResult) (n : Nat)
    (t : Session Ω) (mbchar : List Int) : Outcome (Int × List Int × Session Ω) :=
  match r with
  | .invalid => .ret (mbchar.length, mbchar, t)
  | .incomplete => read_mbchar_loop env dec fuel n t mbchar dec.zero
  | .null => .ret (1, mbchar.set 0 0, t)
  | .complete _ => .ret (mbchar.length, mbchar, t)

/-- A test double for the decoder, after UTF-8: a zero byte is the null
character, a byte below 128 a complete character, a byte in 224..239 starts a
character of three units, and any other first byte is invalid. -/
def testDecoder : Decoder Unit where
  zero := ()
  mbrtowc bytes _ :=
    match bytes with
    | [] => (.incomplete, ())
    | b :: rest =>
      if b = 0 then (.null, ())
      else if b < 128 then (.complete 1, ())
      else if 224 ≤ b ∧ b < 240 then
        (if rest.length < 2 then (.incomplete, ()) else (.complete 3, ()))
      else (.invalid, ())

/-! ## Sequences of buffer calls and the reference queue -/

/-- One call on the typeahead buffer: `rl_stuff_char (b)`, `_rl_unget_char (b)`
or `rl_get_char (&key)`. -/
inductive BufOp where
  | stuff (b : Int)
  | unget (b : Int)
  | get
  deriving DecidableEq, Repr

/-- The argument of the call, if it has one, is a byte value. -/
def BufOp.onByte : BufOp → Bool
  | .stuff b => decide (0 ≤ b ∧ b ≤ 255)
  | .unget b => decide (0 ≤ b ∧ b ≤ 255)
  | .get => true

/-- Run one call on the code.  What the caller observes is the return value
and, for an `rl_get_char` that returned non-zero, the key it delivered. -/
def runBufOp (s : Session Ω) : BufOp → (Int × Option Int) × Session Ω
  | .stuff b => (((rl_stuff_char s b).1, none), (rl_stuff_char s b).2)
  | .unget b => (((_rl_unget_char s b).1, none), (_rl_unget_char s b).2)
  | .get =>
    (((rl_get_char s 0).1, if (rl_get_char s 0).1 = 0 then none else some (rl_get_char s 0).2.1),
      (rl_get_char s 0).2.2)

/-- The session after a sequence of calls. -/
def finalSession (s : Session Ω) : List BufOp → Session Ω
  | [] => s
  | op :: ops => finalSession (runBufOp s op).2 ops

/-- The observations of a sequence of calls, in order. -/
def runBufOps (s : Session Ω) : List BufOp → List (Int × Option Int)
  | [] => []
  | op :: ops => (runBufOp s op).1 :: runBufOps (runBufOp s op).2 ops

/-- The reference double-ended queue of the specification: `stuff` appends at
the back, `unget` prepends at the front, `get` removes the front element and
reports 0 exactly when the queue is empty. -/
def dequeStep (q : List Int) : BufOp → (Int × Option Int) × List Int
  | .stuff b => ((1, none), q ++ [b])
  | .unget b => ((1, none), b :: q)
  | .get =>
    match q with
    | [] => ((0, none), [])
    | x :: rest => ((1, some x), rest)

/-- The observations of the reference queue for a sequence of calls. -/
def dequeRun (q : List Int) : List BufOp → List (Int × Option Int)
  | [] => []
  | op :: ops => (dequeStep q op).1 :: dequeRun (dequeStep q op).2 ops

/-- The reference queue never holds more than `cap` elements along the
sequence of calls. -/
def dequeWithin (cap : Nat) (q : List Int) : List BufOp → Bool
  | [] => decide (q.length ≤ cap)
  | op :: ops => decide (q.length ≤ cap) && dequeWithin cap (dequeStep q op).2 ops

/-- A session whose buffer is empty with both indices on the last cell, so
that the next calls wrap around the end of the array. -/
def wrapSession : Session Unit :=
  { emptySession (fun _ => 0) () with pop_index := 511, push_index := 511 }

/-- A session whose buffer holds 511 bytes: `pop_index` 0, `push_index` 511. -/
def fullSession : Session Unit :=
  { emptySession (fun _ => 0) () with push_index := 511 }

/-- A session holding the two bytes 120 and 121, with 120 at the front. -/
def twoByteSession : Session Unit :=
  { emptySession (fun i => if i = 0 then 120 else 121) () with push_index := 2 }

/-- A test double for the collaborators, the outside world being the list of
bytes not yet read from the input stream: no macro is active, the byte reader
and the bracketed key reader take the next byte of the stream (`EOF` when there
is none), `select` and `FIONREAD` report the bytes of the stream, the signal
handler clears the recorded signal and returns, and the keymap binds the
printable bytes 32..126 to `rl_insert`. -/
def streamEnv : Env (List Int) where
  _rl_next_macro_key s := (0, s)
  event_hook s := s
  rl_getc_function s :=
    match s.world with
    | [] => (EOF, s)
    | b :: rest => (b, { s with world := rest })
  _rl_signal_handler _ s := some { s with _rl_caught_signal := 0 }
  select s := (if s.world.length = 0 then 0 else 1, s)
  ioctl_fionread s := (0, s.world.length, s)
  fcntl_getfl s := (0, s)
  fcntl_setfl _ _ s := s
  read s :=
    match s.world with
    | [] => (0, 0, s)
    | b :: rest => (1, b, { s with world := rest })
  _rl_bracketed_read_key s :=
    match s.world with
    | [] => (EOF, s)
    | b :: rest => (b, { s with world := rest })
  _rl_keymap k := if 32 ≤ k ∧ k ≤ 126 then ⟨ISFUNC, 1⟩ else ⟨ISFUNC, 2⟩
  rl_insert := 1
  rl_insert_text _ s := s

/-- The number of buffered bytes after one call, `n` being the number before
it and `ret` what the call returned: a call that returns non-zero adds one byte
(`rl_stuff_char`, `_rl_unget_char`) or takes one away (`rl_get_char`), and a
call that returns 0 leaves the number as it was. -/
def bufferedStep (n : Int) (op : BufOp) (ret : Int) : Int :=
  match op with
  | .stuff _ => if ret ≠ 0 then n + 1 else n
  | .unget _ => if ret ≠ 0 then n + 1 else n
  | .get => if ret ≠ 0 then n - 1 else n

/-- The number of buffered bytes after a sequence of calls run on the code
from the session `s`, which holds `n` bytes. -/
def bufferedAfter (s : Session Ω) (n : Int) : List BufOp → Int
  | [] => n
  | op :: ops =>
    bufferedAfter (runBufOp s op).2 (bufferedStep n op (runBufOp s op).1.1) ops

/-- A test double in which the `FIONREAD` query is not supported: `select`
reports the descriptor readable, the `ioctl` fails with `ENOTTY`, and
everything else is as in `streamEnv`, so that `read` takes the next byte of the
stream, or returns 0 at its end. -/
def probeEnv : Env (List Int) :=
  { streamEnv with
    select := fun s => (1, s)
    ioctl_fionread := fun s => (-1, 0, { s with errno := ENOTTY }) }

/-- A session with an empty buffer in which the bytes `stream` are still to be
read and the collaborator calls `calls` have been made. -/
def streamSession (stream : List Int) (calls : List Call) : Session (List Int) :=
  { emptySession (fun _ => 0) stream with calls := calls }

/-! ## Lemmas on the buffer -/

theorem queued_length (s : Session Ω) : (queued s).length = (queuedCount s).toNat := by
  simp only [queued, List.length_map, List.length_range]

theorem queued_getElem (s : Session Ω) (i : Nat) (h : i < (queued s).length) :
    (queued s)[i] = s.ibuffer ((s.pop_index + (i : Int)) % 512) := by
  simp only [queued, ibuffer_size, List.getElem_map, List.getElem_range]

theorem queuedCount_nonneg (s : Session Ω) : 0 ≤ queuedCount s := by
  unfold queuedCount ibuffer_size; omega

theorem queuedCount_lt (s : Session Ω) : queuedCount s < 512 := by
  unfold queuedCount ibuffer_size; omega

theorem ibuffer_space_eq (s : Session Ω) (h : IndicesInRange s) :
    ibuffer_space s = 511 - queuedCount s := by
  unfold IndicesInRange ibuffer_len ibuffer_size at h
  unfold ibuffer_space queuedCount ibuffer_len ibuffer_size
  split <;> omega

theorem queued_eq_of (s t : Session Ω) (l : List Int)
    (hlen : (queuedCount t).toNat = (queuedCount s).toNat + l.length)
    (hold : ∀ i : Nat, i < (queuedCount s).toNat →
      t.ibuffer ((t.pop_index + (i : Int)) % 512) = s.ibuffer ((s.pop_index + (i : Int)) % 512))
    (hnew : ∀ (i : Nat) (hi : i < l.length),
      t.ibuffer ((t.pop_index + (((queuedCount s).toNat + i : Nat) : Int)) % 512) = l[i]) :
    queued t = queued s ++ l := by
  apply List.ext_getElem
  · simp only [queued_length, List.length_append, hlen]
  · intro i h1 h2
    rw [queued_getElem]
    by_cases hi : i < (queuedCount s).toNat
    · rw [List.getElem_append_left (by rw [queued_length]; exact hi), queued_getElem]
      exact hold i hi
    · rw [List.getElem_append_right (by rw [queued_length]; omega)]
      have h3 : i - (queued s).length < l.length := by
        rw [queued_length] at h1
        rw [queued_length]; omega
      have h4 := hnew (i - (queued s).length) h3
      rw [← h4]
      have h5 : (queuedCount s).toNat + (i - (queued s).length) = i := by
        rw [queued_length]; omega
      rw [h5]


theorem queued_cons_of (s t : Session Ω)
    (hlen : (queuedCount s).toNat = (queuedCount t).toNat + 1)
    (hrest : ∀ i : Nat, i < (queuedCount t).toNat →
      t.ibuffer ((t.pop_index + (i : Int)) % 512)
        = s.ibuffer ((s.pop_index + ((i + 1 : Nat) : Int)) % 512)) :
    queued s = s.ibuffer (s.pop_index % 512) :: queued t := by
  apply List.ext_getElem
  · simp only [queued_length, List.length_cons, hlen]
  · intro i h1 h2
    rw [queued_getElem]
    cases i with
    | zero => simp
    | succ j =>
      simp only [List.getElem_cons_succ]
      rw [queued_getElem]
      have hj : j < (queuedCount t).toNat := by
        rw [queued_length] at h1; omega
      exact (hrest j hj).symm

theorem rl_stuff_char_full (s : Session Ω) (key : Int) (h : IndicesInRange s)
    (hfull : queuedCount s = 511) : rl_stuff_char s key = (0, s) := by
  have := ibuffer_space_eq s h
  simp [rl_stuff_char, this, hfull]

theorem rl_stuff_char_eq (s : Session Ω) (key : Int) (hne : ibuffer_space s ≠ 0) :
    rl_stuff_char s key =
      (1, { s with
            push_index := if s.push_index + 1 > 511 then 0 else s.push_index + 1,
            ibuffer := Function.update s.ibuffer s.push_index
              ((if key = EOF then NEWLINE else key) % 256),
            rl_pending_input := if key = EOF then EOF else s.rl_pending_input,
            state_inputpending := if key = EOF then true else s.state_inputpending }) := by
  by_cases hk : key = EOF <;> simp [rl_stuff_char, hne, hk, ibuffer_len, ibuffer_size]

theorem rl_stuff_char_ok (s : Session Ω) (key : Int) (h : IndicesInRange s)
    (hroom : queuedCount s < 511) :
    (rl_stuff_char s key).1 = 1 ∧ IndicesInRange (rl_stuff_char s key).2 ∧
    queuedCount (rl_stuff_char s key).2 = queuedCount s + 1 ∧
    queued (rl_stuff_char s key).2
      = queued s ++ [(if key = EOF then NEWLINE else key) % 256] := by
  have hsp := ibuffer_space_eq s h
  have hne : ibuffer_space s ≠ 0 := by omega
  have h0 := queuedCount_nonneg s
  rw [rl_stuff_char_eq s key hne]
  unfold IndicesInRange ibuffer_len ibuffer_size at h
  have hcnt : queuedCount (rl_stuff_char s key).2 = queuedCount s + 1 := by
    rw [rl_stuff_char_eq s key hne]
    unfold queuedCount ibuffer_size at *
    simp only []
    split <;> omega
  rw [rl_stuff_char_eq s key hne] at hcnt
  refine ⟨rfl, ?_, hcnt, ?_⟩
  · unfold IndicesInRange ibuffer_len ibuffer_size
    simp only []
    split <;> omega
  · apply queued_eq_of
    · rw [hcnt]; simp; omega
    · intro i hi
      unfold queuedCount ibuffer_size at hi hroom h0
      simp only []
      rw [Function.update_noteq]
      omega
    · intro i hi
      simp only [List.length_singleton] at hi
      have hi0 : i = 0 := by omega
      subst hi0
      unfold queuedCount ibuffer_size at hroom h0 ⊢
      have hidx : (s.pop_index + (((s.push_index - s.pop_index) % 512).toNat + 0 : Nat))
          % 512 = s.push_index := by omega
      simp only [List.getElem_cons_zero]
      rw [hidx, Function.update_same]


theorem _rl_unget_char_eq (s : Session Ω) (key : Int) (hne : ibuffer_space s ≠ 0) :
    _rl_unget_char s key =
      (1, { s with
            pop_index := if s.pop_index - 1 < 0 then 511 else s.pop_index - 1,
            ibuffer := Function.update s.ibuffer
              (if s.pop_index - 1 < 0 then 511 else s.pop_index - 1) (key % 256) }) := by
  simp [_rl_unget_char, hne, ibuffer_len, ibuffer_size]

theorem _rl_unget_char_full (s : Session Ω) (key : Int) (h : IndicesInRange s)
    (hfull : queuedCount s = 511) : _rl_unget_char s key = (0, s) := by
  have := ibuffer_space_eq s h
  simp [_rl_unget_char, this, hfull]

theorem _rl_unget_char_ok (s : Session Ω) (key : Int) (h : IndicesInRange s)
    (hroom : queuedCount s < 511) :
    (_rl_unget_char s key).1 = 1 ∧ IndicesInRange (_rl_unget_char s key).2 ∧
    queuedCount (_rl_unget_char s key).2 = queuedCount s + 1 ∧
    queued (_rl_unget_char s key).2 = (key % 256) :: queued s := by
  have hsp := ibuffer_space_eq s h
  have hne : ibuffer_space s ≠ 0 := by omega
  have h0 := queuedCount_nonneg s
  rw [_rl_unget_char_eq s key hne]
  unfold IndicesInRange ibuffer_len ibuffer_size at h
  have hcnt : queuedCount (_rl_unget_char s key).2 = queuedCount s + 1 := by
    rw [_rl_unget_char_eq s key hne]
    unfold queuedCount ibuffer_size at *
    simp only []
    split <;> omega
  rw [_rl_unget_char_eq s key hne] at hcnt
  refine ⟨rfl, ?_, hcnt, ?_⟩
  · unfold IndicesInRange ibuffer_len ibuffer_size
    simp only []
    split <;> omega
  · rw [queued_cons_of _ s]
    · simp only []
      have hidx : (if s.pop_index - 1 < 0 then (511 : Int) else s.pop_index - 1) % 512
          = (if s.pop_index - 1 < 0 then 511 else s.pop_index - 1) := by split <;> omega
      rw [hidx, Function.update_same]
    · rw [hcnt]; omega
    · intro i hi
      unfold queuedCount ibuffer_size at hi hroom h0
      simp only []
      rw [Function.update_noteq]
      · congr 1
        split <;> omega
      · split <;> omega

theorem rl_get_char_empty (s : Session Ω) (key : Int) (h : IndicesInRange s)
    (hempty : queuedCount s = 0) : rl_get_char s key = (0, key, s) := by
  unfold IndicesInRange ibuffer_len ibuffer_size at h
  unfold queuedCount ibuffer_size at hempty
  have : s.push_index = s.pop_index := by omega
  simp [rl_get_char, this]

theorem rl_get_char_eq (s : Session Ω) (key : Int) (hne : s.push_index ≠ s.pop_index) :
    rl_get_char s key =
      (1, s.ibuffer s.pop_index,
        { s with pop_index := if s.pop_index + 1 > 511 then 0 else s.pop_index + 1 }) := by
  simp [rl_get_char, hne, ibuffer_len, ibuffer_size]

theorem rl_get_char_ok (s : Session Ω) (key : Int) (h : IndicesInRange s)
    (hpos : 0 < queuedCount s) :
    (rl_get_char s key).1 = 1 ∧ IndicesInRange (rl_get_char s key).2.2 ∧
    queuedCount (rl_get_char s key).2.2 = queuedCount s - 1 ∧
    queued s = (rl_get_char s key).2.1 :: queued (rl_get_char s key).2.2 := by
  have hlt := queuedCount_lt s
  unfold IndicesInRange ibuffer_len ibuffer_size at h
  have hne : s.push_index ≠ s.pop_index := by
    unfold queuedCount ibuffer_size at hpos
    intro he; rw [he] at hpos; simp at hpos
  have hcnt : queuedCount (rl_get_char s key).2.2 = queuedCount s - 1 := by
    rw [rl_get_char_eq s key hne]
    unfold queuedCount ibuffer_size at *
    simp only []
    split <;> omega
  rw [rl_get_char_eq s key hne] at hcnt ⊢
  refine ⟨rfl, ?_, hcnt, ?_⟩
  · unfold IndicesInRange ibuffer_len ibuffer_size
    simp only []
    split <;> omega
  · rw [queued_cons_of s _]
    · simp only []
      have hidx : s.pop_index % 512 = s.pop_index := by omega
      rw [hidx]
    · rw [hcnt]; omega
    · intro i hi
      simp only []
      congr 1
      split <;> omega


/-! ## The buffer against the reference queue -/

theorem queued_length_int (s : Session Ω) : ((queued s).length : Int) = queuedCount s := by
  rw [queued_length]
  exact Int.toNat_of_nonneg (queuedCount_nonneg s)

theorem runBufOp_sim (s : Session Ω) (op : BufOp) (h : IndicesInRange s)
    (hb : op.onByte = true) (hcap : (dequeStep (queued s) op).2.length ≤ 511) :
    (runBufOp s op).1 = (dequeStep (queued s) op).1 ∧ IndicesInRange (runBufOp s op).2 ∧
    queued (runBufOp s op).2 = (dequeStep (queued s) op).2 := by
  have hl := queued_length_int s
  cases op with
  | stuff b =>
    simp only [dequeStep, List.length_append, List.length_singleton] at hcap
    have hroom : queuedCount s < 511 := by omega
    obtain ⟨h1, h2, _, h4⟩ := rl_stuff_char_ok s b h hroom
    simp only [BufOp.onByte, decide_eq_true_eq] at hb
    have hne : b ≠ EOF := by unfold EOF; omega
    have hbb : b % 256 = b := by omega
    simp only [hne, if_false, hbb] at h4
    exact ⟨by simp only [runBufOp, dequeStep, h1], h2, h4⟩
  | unget b =>
    simp only [dequeStep, List.length_cons] at hcap
    have hroom : queuedCount s < 511 := by omega
    obtain ⟨h1, h2, _, h4⟩ := _rl_unget_char_ok s b h hroom
    simp only [BufOp.onByte, decide_eq_true_eq] at hb
    have hbb : b % 256 = b := by omega
    rw [hbb] at h4
    exact ⟨by simp only [runBufOp, dequeStep, h1], h2, h4⟩
  | get =>
    by_cases hz : queuedCount s = 0
    · have hq : queued s = [] := by
        apply List.eq_nil_of_length_eq_zero
        rw [queued_length, hz]; rfl
      have he := rl_get_char_empty s 0 h hz
      simp only [runBufOp, he, hq, dequeStep, if_true]
      exact ⟨trivial, h, trivial⟩
    · have hpos : 0 < queuedCount s := by
        have := queuedCount_nonneg s; omega
      obtain ⟨h1, h2, _, h4⟩ := rl_get_char_ok s 0 h hpos
      simp only [runBufOp, h1, h4, dequeStep]
      exact ⟨by simp, h2, trivial⟩

theorem runBufOps_sim (ops : List BufOp) : ∀ (s : Session Ω), IndicesInRange s →
    (∀ op ∈ ops, op.onByte = true) → dequeWithin 511 (queued s) ops = true →
    runBufOps s ops = dequeRun (queued s) ops := by
  induction ops with
  | nil => intro s _ _ _; rfl
  | cons op ops ih =>
    intro s h hb hcap
    simp only [dequeWithin, Bool.and_eq_true, decide_eq_true_eq] at hcap
    have hnext : (dequeStep (queued s) op).2.length ≤ 511 := by
      cases ops with
      | nil => simpa [dequeWithin] using hcap.2
      | cons o os =>
        have := hcap.2
        simp only [dequeWithin, Bool.and_eq_true, decide_eq_true_eq] at this
        exact this.1
    obtain ⟨h1, h2, h3⟩ := runBufOp_sim s op h (hb op (List.mem_cons_self _ _)) hnext
    simp only [runBufOps, dequeRun, h1]
    rw [ih _ h2 (fun o ho => hb o (List.mem_cons_of_mem _ ho)) (by rw [h3]; exact hcap.2), h3]

/-- C1: for every sequence of `rl_stuff_char`, `_rl_unget_char` and
`rl_get_char` calls on byte values, started on an empty buffer (the two indices
equal, anywhere in the array) and never holding more than 511 queued bytes, what
the code returns call by call is what the reference double-ended queue returns:
every `rl_get_char` delivers the front element of the queue, and returns 0
exactly when the queue is empty. -/
theorem C1_fifo_order (s : Session Ω) (ops : List BufOp)
    (hrange : IndicesInRange s) (hempty : s.push_index = s.pop_index)
    (hbytes : ∀ op ∈ ops, op.onByte = true)
    (hcap : dequeWithin 511 [] ops = true) :
    runBufOps s ops = dequeRun [] ops := by
  have hq : queued s = [] := by
    apply List.eq_nil_of_length_eq_zero
    rw [queued_length]
    simp [queuedCount, hempty]
  have := runBufOps_sim ops s hrange hbytes (by rw [hq]; exact hcap)
  rw [this, hq]


/-- Witness of C1 on a buffer whose indices start on the last cell: two
stuffed bytes and one ungot byte come out as the reference queue orders them,
and the fourth `rl_get_char` returns 0. -/
theorem C1_fifo_order_witness :
    runBufOps wrapSession
        [.stuff 97, .stuff 98, .unget 99, .get, .get, .get, .get]
      = [(1, none), (1, none), (1, none), (1, some 99), (1, some 97), (1, some 98),
          (0, none)] :=
  (C1_fifo_order wrapSession [.stuff 97, .stuff 98, .unget 99, .get, .get, .get, .get]
    (by decide) rfl (by decide) (by decide)).trans (by decide)

theorem runBufOps_append (a b : List BufOp) : ∀ s : Session Ω,
    runBufOps s (a ++ b) = runBufOps s a ++ runBufOps (finalSession s a) b := by
  induction a with
  | nil => intro s; rfl
  | cons op a ih =>
    intro s
    show (runBufOp s op).1 :: runBufOps (runBufOp s op).2 (a ++ b) = _
    rw [ih]; rfl

theorem finalSession_append (a b : List BufOp) : ∀ s : Session Ω,
    finalSession s (a ++ b) = finalSession (finalSession s a) b := by
  induction a with
  | nil => intro s; rfl
  | cons op a ih =>
    intro s
    show finalSession (runBufOp s op).2 (a ++ b) = _
    rw [ih]; rfl

theorem stuff_replicate (b : Int) (hb : 0 ≤ b ∧ b ≤ 255) (n : Nat) : ∀ s : Session Ω,
    IndicesInRange s → queuedCount s + n ≤ 511 →
    runBufOps s (List.replicate n (.stuff b)) = List.replicate n (1, none) ∧
    IndicesInRange (finalSession s (List.replicate n (.stuff b))) ∧
    queued (finalSession s (List.replicate n (.stuff b))) = queued s ++ List.replicate n b := by
  induction n with
  | zero => intro s h _; simp [runBufOps, finalSession, h]
  | succ n ih =>
    intro s h hn
    obtain ⟨h1, h2, h3, h4⟩ := rl_stuff_char_ok s b h (by omega)
    have hne : b ≠ EOF := by unfold EOF; omega
    have hbb : b % 256 = b := by omega
    simp only [hne, if_false, hbb] at h4
    obtain ⟨i1, i2, i3⟩ := ih (rl_stuff_char s b).2 h2 (by rw [h3]; push_cast at hn; omega)
    simp only [List.replicate_succ, runBufOps, finalSession, runBufOp, h1, i1, i3, h4]
    exact ⟨trivial, i2, by simp⟩

theorem get_replicate (v : Int) (rest : List Int) (n : Nat) : ∀ s : Session Ω,
    IndicesInRange s → queued s = List.replicate n v ++ rest →
    runBufOps s (List.replicate n .get) = List.replicate n (1, some v) ∧
    IndicesInRange (finalSession s (List.replicate n .get)) ∧
    queued (finalSession s (List.replicate n .get)) = rest := by
  induction n with
  | zero => intro s h hq; simpa [runBufOps, finalSession, h] using hq
  | succ n ih =>
    intro s h hq
    have hl := queued_length_int s
    have hpos : 0 < queuedCount s := by
      rw [← hl, hq]; simp; omega
    obtain ⟨h1, h2, _, h4⟩ := rl_get_char_ok s 0 h hpos
    rw [hq, List.replicate_succ, List.cons_append] at h4
    injection h4 with h5 h6
    obtain ⟨i1, i2, i3⟩ := ih (rl_get_char s 0).2.2 h2 h6.symm
    simp only [List.replicate_succ, runBufOps, finalSession, runBufOp, h1, i1, i3, ← h5]
    exact ⟨by simp, i2, trivial⟩

/-- C2: whenever the buffer holds 511 bytes, `rl_stuff_char (key)` returns 0 for
every key and leaves the whole session (indices, array, pending input, flags)
as it was.  In particular, on the empty buffer 511 stuffs of the byte 97 (`'a'`)
all return 1, the 512th returns 0 and changes nothing, the next 511
`rl_get_char` calls each deliver 97, and the 512th returns 0. -/
theorem C2_full_buffer_rejects (s : Session Ω) (key : Int)
    (hrange : IndicesInRange s) (hfull : queuedCount s = 511) :
    rl_stuff_char s key = (0, s) ∧
    ∀ (mem : Int → Int) (w : Ω),
      runBufOps (emptySession mem w)
          (List.replicate 511 (.stuff 97) ++ ([.stuff 97] ++ (List.replicate 511 .get ++ [.get])))
        = List.replicate 511 (1, none) ++ ([(0, none)]
            ++ (List.replicate 511 (1, some 97) ++ [(0, none)])) ∧
      rl_stuff_char (finalSession (emptySession mem w) (List.replicate 511 (.stuff 97))) 97
        = (0, finalSession (emptySession mem w) (List.replicate 511 (.stuff 97))) := by
  refine ⟨rl_stuff_char_full s key hrange hfull, ?_⟩
  intro mem w
  have hr0 : IndicesInRange (emptySession mem w) := by
    simp [IndicesInRange, emptySession, ibuffer_len, ibuffer_size]
  have hc0 : queuedCount (emptySession mem w) = 0 := by
    simp [queuedCount, emptySession]
  have hq0 : queued (emptySession mem w) = [] := by
    apply List.eq_nil_of_length_eq_zero
    rw [queued_length, hc0]; rfl
  obtain ⟨a1, a2, a3⟩ := stuff_replicate 97 (by omega) 511 (emptySession mem w) hr0
    (by rw [hc0]; norm_num)
  rw [hq0, List.nil_append] at a3
  have hc1 : queuedCount (finalSession (emptySession mem w) (List.replicate 511 (.stuff 97)))
      = 511 := by
    rw [← queued_length_int, a3, List.length_replicate]; rfl
  have hfull1 := rl_stuff_char_full _ 97 a2 hc1
  refine ⟨?_, hfull1⟩
  obtain ⟨b1, b2, b3⟩ := get_replicate 97 [] 511 _ a2 (by rw [a3, List.append_nil])
  have hc2 : queuedCount (finalSession (finalSession (emptySession mem w)
      (List.replicate 511 (.stuff 97))) (List.replicate 511 .get)) = 0 := by
    rw [← queued_length_int, b3]; rfl
  have hlast := rl_get_char_empty _ 0 b2 hc2
  generalize hS1 : finalSession (emptySession mem w) (List.replicate 511 (.stuff 97)) = S1
    at hfull1 b1 hlast
  generalize hS2 : finalSession S1 (List.replicate 511 .get) = S2 at hlast
  have e1 : runBufOps S1 [.stuff 97] = [(0, none)] := by
    simp only [runBufOps, runBufOp, hfull1]
  have e2 : finalSession S1 [.stuff 97] = S1 := by
    simp only [finalSession, runBufOp, hfull1]
  have e3 : runBufOps S2 [.get] = [(0, none)] := by
    simp only [runBufOps, runBufOp, hlast, if_true]
  rw [runBufOps_append, a1, hS1, runBufOps_append, e1, e2, runBufOps_append, b1, hS2, e3]

/-- Witness of C2 on the buffer with `pop_index` 0 and `push_index` 511. -/
theorem C2_full_buffer_rejects_witness :
    IndicesInRange fullSession ∧ queuedCount fullSession = 511 ∧
    rl_stuff_char fullSession 65 = (0, fullSession) :=
  ⟨by decide, by decide, (C2_full_buffer_rejects fullSession 65 (by decide) (by decide)).1⟩


/-- C3: in every buffer state with at least one free slot, and for every byte
`b`, `_rl_unget_char (b)` returns non-zero and an immediately following
`rl_get_char` returns 1 with `key = b`; afterwards `push_index`, `pop_index`
and the queued bytes are what they were before the `_rl_unget_char` call. -/
theorem C3_unget_then_get (s : Session Ω) (b key0 : Int)
    (hrange : IndicesInRange s) (hroom : 0 < ibuffer_space s) (hb : 0 ≤ b ∧ b ≤ 255) :
    (_rl_unget_char s b).1 ≠ 0 ∧
    (rl_get_char (_rl_unget_char s b).2 key0).1 = 1 ∧
    (rl_get_char (_rl_unget_char s b).2 key0).2.1 = b ∧
    (rl_get_char (_rl_unget_char s b).2 key0).2.2.push_index = s.push_index ∧
    (rl_get_char (_rl_unget_char s b).2 key0).2.2.pop_index = s.pop_index ∧
    queued (rl_get_char (_rl_unget_char s b).2 key0).2.2 = queued s := by
  have hsp := ibuffer_space_eq s hrange
  have h0 := queuedCount_nonneg s
  obtain ⟨u1, u2, u3, u4⟩ := _rl_unget_char_ok s b hrange (by omega)
  obtain ⟨g1, _, _, g4⟩ := rl_get_char_ok (_rl_unget_char s b).2 key0 u2 (by omega)
  have hbb : b % 256 = b := by omega
  rw [u4, hbb] at g4
  injection g4 with g5 g6
  refine ⟨by rw [u1]; decide, g1, g5.symm, ?_, ?_, g6.symm⟩
  · have hne : ibuffer_space s ≠ 0 := by omega
    have hne2 : (_rl_unget_char s b).2.push_index ≠ (_rl_unget_char s b).2.pop_index := by
      intro he
      have : queuedCount (_rl_unget_char s b).2 = 0 := by simp [queuedCount, he]
      omega
    rw [rl_get_char_eq _ _ hne2, _rl_unget_char_eq s b hne]
  · have hne : ibuffer_space s ≠ 0 := by omega
    have hne2 : (_rl_unget_char s b).2.push_index ≠ (_rl_unget_char s b).2.pop_index := by
      intro he
      have : queuedCount (_rl_unget_char s b).2 = 0 := by simp [queuedCount, he]
      omega
    rw [rl_get_char_eq _ _ hne2, _rl_unget_char_eq s b hne]
    unfold IndicesInRange ibuffer_len ibuffer_size at hrange
    simp only []
    split <;> split <;> omega

/-- Witness of C3 on a buffer holding two bytes with `pop_index` 0, so that
the ungot byte goes to the last cell of the array. -/
theorem C3_unget_then_get_witness :
    (_rl_unget_char twoByteSession 65).1 ≠ 0 ∧
    (rl_get_char (_rl_unget_char twoByteSession 65).2 0).1 = 1 ∧
    (rl_get_char (_rl_unget_char twoByteSession 65).2 0).2.1 = 65 ∧
    (rl_get_char (_rl_unget_char twoByteSession 65).2 0).2.2.push_index = 2 ∧
    (rl_get_char (_rl_unget_char twoByteSession 65).2 0).2.2.pop_index = 0 ∧
    queued (rl_get_char (_rl_unget_char twoByteSession 65).2 0).2.2 = queued twoByteSession :=
  C3_unget_then_get twoByteSession 65 0 (by decide) (by decide) (by decide)

/-- C4, as stated, fails: on the full buffer `rl_stuff_char (EOF)` returns 0
before it reaches the assignment of `rl_pending_input`, so the pending input is
not `EOF` and the input-pending flag is not set afterwards. -/
theorem C4_counterexample :
    IndicesInRange fullSession ∧
    (rl_stuff_char fullSession EOF).1 = 0 ∧
    (rl_stuff_char fullSession EOF).2.rl_pending_input ≠ EOF ∧
    (rl_stuff_char fullSession EOF).2.state_inputpending = false := by
  decide

/-- C4, amended: in every buffer state `rl_stuff_char (EOF)` adds at most one
byte, a newline and never the end-of-file value.  When the buffer has a free
slot it returns 1, appends that newline at the back and sets `rl_pending_input`
to `EOF` together with the input-pending flag; when the buffer is full it
returns 0 and leaves the session, pending input and flag included, unchanged. -/
theorem C4_stuff_eof (s : Session Ω) (hrange : IndicesInRange s) :
    (ibuffer_space s ≠ 0 →
      (rl_stuff_char s EOF).1 = 1 ∧
      queued (rl_stuff_char s EOF).2 = queued s ++ [NEWLINE] ∧ NEWLINE ≠ EOF ∧
      (rl_stuff_char s EOF).2.rl_pending_input = EOF ∧
      (rl_stuff_char s EOF).2.state_inputpending = true) ∧
    (ibuffer_space s = 0 → rl_stuff_char s EOF = (0, s)) := by
  have hsp := ibuffer_space_eq s hrange
  have hlt := queuedCount_lt s
  constructor
  · intro hne
    obtain ⟨h1, _, _, h4⟩ := rl_stuff_char_ok s EOF hrange (by omega)
    refine ⟨h1, ?_, by decide, ?_, ?_⟩
    · rw [h4]; rfl
    · rw [rl_stuff_char_eq s EOF hne]; rfl
    · rw [rl_stuff_char_eq s EOF hne]; rfl
  · intro hz
    exact rl_stuff_char_full s EOF hrange (by omega)

/-- Witness of C4 (amended) on a buffer holding two bytes. -/
theorem C4_stuff_eof_witness :
    (rl_stuff_char twoByteSession EOF).1 = 1 ∧
    queued (rl_stuff_char twoByteSession EOF).2 = [120, 121, 10] ∧
    (rl_stuff_char twoByteSession EOF).2.rl_pending_input = EOF ∧
    (rl_stuff_char twoByteSession EOF).2.state_inputpending = true :=
  have h := (C4_stuff_eof twoByteSession (by decide)).1 (by decide)
  ⟨h.1, h.2.1.trans (by decide), h.2.2.2.1, h.2.2.2.2⟩


/-! ## The key reader -/

/-- C5, as stated, fails for the value 0: after `rl_execute_next (0)` the test
`if (rl_pending_input)` of `rl_read_key` is false, so the call goes to the
macro source and then to the byte reader, returns the byte 65 read from the
stream instead of 0, and leaves the input-pending flag set. -/
theorem C5_counterexample :
    (rl_read_key streamEnv 0 (rl_execute_next (emptySession (fun _ => 0) [65]) 0).2).toOption.map
        (fun r => (r.1, r.2.calls, r.2.state_inputpending))
      = some (65, [.next_macro_key, .getc], true) := by
  decide

/-- C5, amended: for every non-zero value `c` injected with
`rl_execute_next (c)`, whatever the buffer holds, the next `rl_read_key` returns
`c`, clears `rl_pending_input` and the input-pending flag, and leaves everything
else (typeahead buffer, record of collaborator calls, outside world) as it was
before the injection, so that no macro source, event hook or byte reader was
consulted.  A second `rl_read_key` starts from that cleared session: when the
macro source yields nothing, no event hook is installed, the buffer is empty
and the byte reader leaves no signal recorded, it returns what the byte reader
returns, the calls made being the macro source and then the byte reader. -/
theorem C5_pending_first (env : Env Ω) (fuel : Nat) (s : Session Ω) (c : Int) (hc : c ≠ 0) :
    rl_read_key env fuel (rl_execute_next s c).2
      = .ret (c, { s with rl_pending_input := 0, state_inputpending := false }) ∧
    ∀ s1 : Session Ω, s1 = { s with rl_pending_input := 0, state_inputpending := false } →
      (env._rl_next_macro_key s1).1 = 0 →
      (env._rl_next_macro_key s1).2.rl_event_hook = false →
      (env._rl_next_macro_key s1).2.push_index = (env._rl_next_macro_key s1).2.pop_index →
      (env.rl_getc_function (call_next_macro_key env s1).2).2._rl_caught_signal = 0 →
      rl_read_key env fuel s1 = .ret (call_getc env (call_next_macro_key env s1).2) ∧
      (call_getc env (call_next_macro_key env s1).2).2.calls
        = s.calls ++ [.next_macro_key, .getc] := by
  constructor
  · simp [rl_read_key, rl_execute_next, rl_clear_pending_input, hc]
  · intro s1 hs1 hm hh he hsig
    have hp : s1.rl_pending_input = 0 := by rw [hs1]
    have hcalls : s1.calls = s.calls := by rw [hs1]
    constructor
    · have hm' : (call_next_macro_key env s1).1 = 0 := hm
      have hh' : (call_next_macro_key env s1).2.rl_event_hook = false := hh
      have he' : (call_next_macro_key env s1).2.push_index
          = (call_next_macro_key env s1).2.pop_index := he
      have hsig' : (call_getc env (call_next_macro_key env s1).2).2._rl_caught_signal = 0 := hsig
      simp only [rl_read_key, hp, ne_eq, not_true_eq_false, if_false, hm', hh',
        Bool.false_eq_true, rl_get_char, he', if_true, RL_CHECK_SIGNALS, hsig']
    · simp [call_getc, call_next_macro_key, logged, hcalls]

/-- Witness of C5 (amended) with the value 7 injected: over a buffer holding
two bytes the first `rl_read_key` returns 7 and leaves the two bytes queued;
over an empty buffer and a stream holding the byte 65, the second
`rl_read_key` returns 65 from the byte reader. -/
theorem C5_pending_first_witness :
    (rl_read_key streamEnv 0
        (rl_execute_next { emptySession (fun _ => 120) [65] with push_index := 2 } 7).2).toOption.map
      (fun r => (r.1, r.2.rl_pending_input, r.2.state_inputpending, r.2.calls, queued r.2))
      = some (7, 0, false, [], [120, 120]) ∧
    (rl_read_key streamEnv 0
        { emptySession (fun _ => 0) [65] with
          rl_pending_input := 0, state_inputpending := false }).toOption.map
      (fun r => (r.1, r.2.calls))
      = some (65, [.next_macro_key, .getc]) := by
  constructor
  · rw [(C5_pending_first streamEnv 0
      { emptySession (fun _ => 120) [65] with push_index := 2 } 7 (by decide)).1]
    decide
  · rw [((C5_pending_first streamEnv 0 (emptySession (fun _ => 0) [65]) 7 (by decide)).2
      _ rfl rfl rfl rfl rfl).1]
    decide


/-! ## The blocking byte reader -/

theorem rl_getc_transient (a : Attempt) (rest : List Attempt) (log : List Call)
    (h : a.wouldBlock = true ∨ a.interrupted = true) :
    ∃ log1, rl_getc (a :: rest) log = rl_getc rest log1 ∧
      log1.count .unset_nodelay_mode
        = log.count .unset_nodelay_mode + (if a.wouldBlock = true then 1 else 0) := by
  rcases h with h | h
  · have hw := h
    simp only [Attempt.wouldBlock, decide_eq_true_eq] at h
    obtain ⟨h1, h2, h3, h4, h5⟩ := h
    refine ⟨a.logRead log ++ [.unset_nodelay_mode], ?_, ?_⟩
    · have hr1 : a.result ≠ 1 := by simp only [Attempt.result]; split <;> omega
      have hr0 : a.result ≠ 0 := by simp only [Attempt.result]; split <;> omega
      have h5' : ¬ a.unset_nodelay_result < 0 := by omega
      simp only [rl_getc, h1, ne_eq, not_true_eq_false, false_and, if_false,
        if_true, hr1, hr0, h4, h5']
    · simp [hw, List.count_append, Attempt.logRead, h1, h2]
  · have hw : a.wouldBlock = false := by
      simp only [Attempt.interrupted, decide_eq_true_eq] at h
      simp only [Attempt.wouldBlock, decide_eq_false_iff_not]
      unfold EINTR at h; unfold EWOULDBLOCK EAGAIN
      omega
    simp only [Attempt.interrupted, decide_eq_true_eq] at h
    obtain ⟨h1, h2, h3, h4, h5⟩ := h
    have hck : a.checksAfter = false := by
      simp only [Attempt.checksAfter, h5, ne_eq, not_true_eq_false, and_false, decide_False]
    refine ⟨a.logRetry log, ?_, ?_⟩
    · have hr1 : a.result ≠ 1 := by simp only [Attempt.result]; split <;> omega
      have hr0 : a.result ≠ 0 := by simp only [Attempt.result]; split <;> omega
      have he : ¬ (EINTR = EWOULDBLOCK ∨ EINTR = EAGAIN) := by decide
      have hs : ¬ ((0 : Int) = SIGHUP ∨ (0 : Int) = SIGTERM) := by decide
      simp only [rl_getc, h1, ne_eq, not_true_eq_false, false_and, if_false,
        if_true, hr1, hr0, he, h4, hs, h5, hck, Bool.false_eq_true]
    · simp only [hw, Bool.false_eq_true, if_false, Nat.add_zero, Attempt.logRetry,
        Attempt.logRead, h1, hck, ne_eq, not_true_eq_false, ge_iff_le, h2, if_true]
      split <;> simp [List.count_append]

theorem rl_getc_transients (fails : List Attempt) : ∀ (rest : List Attempt) (log : List Call),
    (∀ a ∈ fails, a.wouldBlock = true ∨ a.interrupted = true) →
    ∃ log1, rl_getc (fails ++ rest) log = rl_getc rest log1 ∧
      log1.count .unset_nodelay_mode
        = log.count .unset_nodelay_mode + fails.countP (fun a => a.wouldBlock) := by
  induction fails with
  | nil => intro rest log _; exact ⟨log, rfl, by simp⟩
  | cons a fails ih =>
    intro rest log h
    obtain ⟨l1, e1, c1⟩ := rl_getc_transient a (fails ++ rest) log (h a (List.mem_cons_self _ _))
    obtain ⟨l2, e2, c2⟩ := ih rest l1 (fun x hx => h x (List.mem_cons_of_mem _ hx))
    refine ⟨l2, by rw [List.cons_append, e1, e2], ?_⟩
    rw [c2, c1, List.countP_cons]
    omega


theorem rl_getc_delivers (a : Attempt) (rest : List Attempt) (log : List Call) (b : Int)
    (h : a.delivers b = true) : rl_getc (a :: rest) log = .ret (b, a.logRead log) := by
  simp only [Attempt.delivers, decide_eq_true_eq] at h
  obtain ⟨h1, h2, h3, h4, h5, h6⟩ := h
  have hr : a.result = 1 := by simp only [Attempt.result]; split <;> omega
  have hb : a.c % 256 = b := by omega
  simp only [rl_getc, h1, ne_eq, not_true_eq_false, false_and, if_false, if_true, hr, hb]

theorem rl_getc_endOfStream (a : Attempt) (rest : List Attempt) (log : List Call)
    (h : a.endOfStream = true) : rl_getc (a :: rest) log = .ret (EOF, a.logRead log) := by
  simp only [Attempt.endOfStream, decide_eq_true_eq] at h
  obtain ⟨h1, h2, h3⟩ := h
  have hr : a.result = 0 := by simp only [Attempt.result]; split <;> omega
  simp only [rl_getc, h1, ne_eq, not_true_eq_false, false_and, if_false, if_true, hr,
    zero_ne_one]

/-- C6: the POSIX `rl_getc` hides transient failures.  After any finite
sequence of turns whose single-byte read fails either with would-block
(`EAGAIN`/`EWOULDBLOCK`, the clearing of non-blocking mode succeeding) or with
`EINTR` while no signal is recorded as caught, a turn that delivers the byte
`b` makes `rl_getc` return `b`, and a turn that reads zero bytes makes it return
`EOF`; in both cases `sh_unset_nodelay_mode` has been called exactly once for
each would-block failure. -/
theorem C6_transient_failures_hidden (fails : List Attempt) (last : Attempt)
    (rest : List Attempt) (b : Int)
    (hfails : ∀ a ∈ fails, a.wouldBlock = true ∨ a.interrupted = true) :
    (last.delivers b = true →
      ∃ log, rl_getc (fails ++ last :: rest) [] = .ret (b, log) ∧
        log.count .unset_nodelay_mode = fails.countP (fun a => a.wouldBlock)) ∧
    (last.endOfStream = true →
      ∃ log, rl_getc (fails ++ last :: rest) [] = .ret (EOF, log) ∧
        log.count .unset_nodelay_mode = fails.countP (fun a => a.wouldBlock)) := by
  obtain ⟨l1, e1, c1⟩ := rl_getc_transients fails (last :: rest) [] hfails
  have hcnt : ∀ l : List Call, (last.logRead l).count .unset_nodelay_mode
      = l.count .unset_nodelay_mode := by
    intro l
    simp only [Attempt.logRead]
    split <;> split <;> simp [List.count_append]
  constructor
  · intro h
    refine ⟨last.logRead l1, by rw [e1, rl_getc_delivers last rest l1 b h], ?_⟩
    rw [hcnt, c1]; simp
  · intro h
    refine ⟨last.logRead l1, by rw [e1, rl_getc_endOfStream last rest l1 h], ?_⟩
    rw [hcnt, c1]; simp

/-- Witness of C6: two would-block failures and then a read delivering the
byte 65 give 65 after exactly two calls of `sh_unset_nodelay_mode`; an `EINTR`
failure followed by a zero-byte read gives `EOF`. -/
theorem C6_transient_failures_hidden_witness :
    (∃ log, rl_getc [readTurn (-1) 0 EAGAIN, readTurn (-1) 0 EWOULDBLOCK, readTurn 1 65 0] []
        = .ret (65, log) ∧ log.count .unset_nodelay_mode = 2) ∧
    (∃ log, rl_getc [readTurn (-1) 0 EINTR, readTurn 0 0 0] []
        = .ret (EOF, log) ∧ log.count .unset_nodelay_mode = 0) :=
  ⟨(C6_transient_failures_hidden [readTurn (-1) 0 EAGAIN, readTurn (-1) 0 EWOULDBLOCK]
      (readTurn 1 65 0) [] 65 (by decide)).1 (by decide),
   (C6_transient_failures_hidden [readTurn (-1) 0 EINTR]
      (readTurn 0 0 0) [] 0 (by decide)).2 (by decide)⟩

/-- C8, on the code: with three bytes waiting on the stream and an empty
buffer, `rl_gather_tyi` reads and stuffs the three bytes and returns 1, not 3;
with the same stream and a buffer that already holds two bytes it reads nothing
and still returns 1, not 0. -/
theorem C8_gather_returns_one :
    (rl_gather_tyi streamEnv (emptySession (fun _ => 0) [97, 98, 99])).toOption.map
        (fun r => (r.1, queued r.2, r.2.calls.count .getc))
      = some (1, [97, 98, 99], 3) ∧
    (rl_gather_tyi streamEnv
        { emptySession (fun _ => 120) [97, 98, 99] with push_index := 2 }).toOption.map
        (fun r => (r.1, queued r.2, r.2.calls.count .getc))
      = some (1, [120, 120], 0) := by
  constructor <;> decide

/-! ## Inserting typeahead -/

theorem typein_loop_spec (env : Env Ω) (fuel : Nat) : ∀ (s : Session Ω) (key : Int)
    (string : List Int), IndicesInRange s → (queued s).length < fuel →
    (∀ b ∈ queued s, 0 ≤ b ∧ b ≤ 255) →
    ∃ t key1 s1,
      typein_loop env fuel s key string
        = some (t, key1, string ++ (queued s).takeWhile (bound_to_insert env), s1) ∧
      IndicesInRange s1 ∧ s1.push_index = s.push_index ∧ s1.calls = s.calls ∧
      s1.world = s.world ∧
      ((t = 0 ∧ (queued s).dropWhile (bound_to_insert env) = [] ∧ queued s1 = []) ∨
       (t = 1 ∧ (queued s).dropWhile (bound_to_insert env) = key1 :: queued s1)) := by
  induction fuel with
  | zero => intro s key string _ hf _; omega
  | succ fuel ih =>
    intro s key string hr hf hb
    by_cases hz : queuedCount s = 0
    · have hq : queued s = [] := by
        apply List.eq_nil_of_length_eq_zero
        rw [queued_length, hz]; rfl
      have he := rl_get_char_empty s key hr hz
      refine ⟨0, key, s, ?_, hr, rfl, rfl, rfl, Or.inl ⟨rfl, by rw [hq]; rfl, hq⟩⟩
      simp [typein_loop, he, hq]
    · have hpos : 0 < queuedCount s := by
        have := queuedCount_nonneg s; omega
      obtain ⟨g1, g2, _, g4⟩ := rl_get_char_ok s key hr hpos
      have hne : s.push_index ≠ s.pop_index := by
        intro he
        apply hz
        simp [queuedCount, he]
      have gpush : (rl_get_char s key).2.2.push_index = s.push_index := by
        rw [rl_get_char_eq s key hne]
      have gcalls : (rl_get_char s key).2.2.calls = s.calls := by
        rw [rl_get_char_eq s key hne]
      have gworld : (rl_get_char s key).2.2.world = s.world := by
        rw [rl_get_char_eq s key hne]
      have hkb : (rl_get_char s key).2.1 % 256 = (rl_get_char s key).2.1 := by
        have := hb (rl_get_char s key).2.1 (by rw [g4]; exact List.mem_cons_self _ _)
        omega
      by_cases hp : bound_to_insert env (rl_get_char s key).2.1 = true
      · obtain ⟨t, key1, s1, e, r1, r2, r3, r3b, r4⟩ := ih (rl_get_char s key).2.2
          (rl_get_char s key).2.1 (string ++ [(rl_get_char s key).2.1 % 256]) g2
          (by rw [g4] at hf; simp only [List.length_cons] at hf; omega)
          (fun b hbm => hb b (by rw [g4]; exact List.mem_cons_of_mem _ hbm))
        refine ⟨t, key1, s1, ?_, r1, r2.trans gpush, r3.trans gcalls, r3b.trans gworld, ?_⟩
        · rw [typein_loop, if_pos ⟨by rw [g1]; decide, hp⟩, e, hkb]
          conv_rhs => rw [g4, List.takeWhile_cons_of_pos hp]
          simp
        · conv in (List.dropWhile _ (queued s)) => rw [g4]
          conv in (List.dropWhile _ (queued s)) => rw [g4]
          rw [List.dropWhile_cons_of_pos hp]
          exact r4
      · refine ⟨1, (rl_get_char s key).2.1, (rl_get_char s key).2.2, ?_, g2, gpush, gcalls,
          gworld, Or.inr ⟨rfl, ?_⟩⟩
        · rw [typein_loop, if_neg (fun h => hp h.2), g1]
          conv_rhs => rw [g4, List.takeWhile_cons_of_neg hp]
          simp
        · conv_lhs => rw [g4]
          rw [List.dropWhile_cons_of_neg hp]


theorem rl_get_char_frame (s : Session Ω) (key : Int) :
    (rl_get_char s key).2.2 = { s with pop_index := (rl_get_char s key).2.2.pop_index } := by
  unfold rl_get_char
  split <;> rfl

theorem typein_loop_frame (env : Env Ω) (fuel : Nat) : ∀ (s : Session Ω) (key : Int)
    (string : List Int) (t key1 : Int) (string1 : List Int) (s1 : Session Ω),
    typein_loop env fuel s key string = some (t, key1, string1, s1) →
    s1 = { s with pop_index := s1.pop_index } := by
  induction fuel with
  | zero => intro s key string t key1 string1 s1 h; simp [typein_loop] at h
  | succ fuel ih =>
    intro s key string t key1 string1 s1 h
    rw [typein_loop] at h
    split at h
    · have h1 := ih _ _ _ _ _ _ _ h
      have h2 := rl_get_char_frame s key
      rw [h1, h2]
    · injection h with h
      injection h with _ h
      injection h with _ h
      injection h with _ h
      rw [← h]
      exact rl_get_char_frame s key

/-- C9, as stated, fails.  With the first character 0 over the queued bytes
`h` and `i`, `_rl_insert_typein` stores 0, `h`, `i` and a NUL in `string`, and
`rl_insert_text` is given the empty C string, not a string made of the
character followed by `h` and `i`.  With 511 queued bytes `a`, all bound to
`rl_insert`, the terminating NUL is written past the 512 bytes allocated for
`string`, and nothing is promised about what `rl_insert_text` is given. -/
theorem C9_counterexample :
    (_rl_insert_typein streamEnv 3
        { emptySession (fun i => if i = 0 then 104 else 105) [] with push_index := 2 }
        0).session.map (fun r => (r.calls, queued r))
      = some ([.insert_text []], []) ∧
    _rl_insert_typein streamEnv 512
        (finalSession (emptySession (fun _ => 0) []) (List.replicate 511 (.stuff 97))) 97
      = .out_of_bounds := by
  refine ⟨by decide, ?_⟩
  have hr0 : IndicesInRange (emptySession (fun _ => 0) ([] : List Int)) := by decide
  have hc0 : queuedCount (emptySession (fun _ => 0) ([] : List Int)) = 0 := by decide
  have hq0 : queued (emptySession (fun _ => 0) ([] : List Int)) = [] := by decide
  obtain ⟨_, a2, a3⟩ := stuff_replicate 97 (by omega) 511
    (emptySession (fun _ => 0) ([] : List Int)) hr0 (by rw [hc0]; norm_num)
  rw [hq0, List.nil_append] at a3
  generalize finalSession (emptySession (fun _ => 0) ([] : List Int))
    (List.replicate 511 (.stuff 97)) = S at a2 a3 ⊢
  have hb : ∀ b ∈ queued S, 0 ≤ b ∧ b ≤ 255 := by
    intro b hb
    rw [a3] at hb
    have := List.eq_of_mem_replicate hb
    omega
  have hp : bound_to_insert streamEnv 97 = true := by decide
  obtain ⟨t, key1, s1, e, _⟩ := typein_loop_spec streamEnv 512 S 0 [97 % 256] a2
    (by rw [a3, List.length_replicate]; omega) hb
  rw [a3, List.takeWhile_replicate, if_pos hp] at e
  have hlen : ¬ ((([97 % 256] ++ List.replicate 511 (97 : Int)).length : Int) < typein_alloc) := by
    rw [List.length_append, List.length_replicate]
    decide
  simp only [_rl_insert_typein, e, hlen, if_false]

/-- C9, amended: for every first character `c` and every buffer content `q`
(bytes) whose longest prefix `p` of keys mapped to a function entry bound to
`rl_insert` has fewer than 511 bytes, `_rl_insert_typein (c)` returns after one
collaborator call, `rl_insert_text`, on the C string of the bytes `c` (as a
`char`, so modulo 256) followed by `p`: these bytes up to the first zero byte,
hence exactly `c` followed by `p` when `c` is not zero modulo 256 and no byte
of `p` is zero.  The session given to `rl_insert_text` holds the rest of `q` in
its original order and differs from the one before the call in `pop_index` and
`ibuffer` only.  When the loop stopped on a byte that does not match (`t`
non-zero), the `_rl_unget_char` that pushes it back returns 1. -/
theorem C9_insert_typein (env : Env Ω) (fuel : Nat) (s : Session Ω) (c : Int)
    (hrange : IndicesInRange s) (hbytes : ∀ b ∈ queued s, 0 ≤ b ∧ b ≤ 255)
    (hfuel : (queued s).length < fuel)
    (hfit : ((queued s).takeWhile (fun k => decide ((env._rl_keymap k).type = ISFUNC ∧
      (env._rl_keymap k).function = env.rl_insert))).length < 511) :
    (∃ s1 : Session Ω,
      _rl_insert_typein env fuel s c
        = .inserted
            { env.rl_insert_text
                (((c % 256) :: (queued s).takeWhile (fun k => decide
                    ((env._rl_keymap k).type = ISFUNC ∧
                      (env._rl_keymap k).function = env.rl_insert))).takeWhile
                  (fun b => decide (b ≠ 0))) s1 with
              calls := s.calls ++ [.insert_text
                (((c % 256) :: (queued s).takeWhile (fun k => decide
                    ((env._rl_keymap k).type = ISFUNC ∧
                      (env._rl_keymap k).function = env.rl_insert))).takeWhile
                  (fun b => decide (b ≠ 0)))] } ∧
      queued s1 = (queued s).dropWhile (fun k => decide ((env._rl_keymap k).type = ISFUNC ∧
        (env._rl_keymap k).function = env.rl_insert)) ∧
      IndicesInRange s1 ∧
      s1 = { s with pop_index := s1.pop_index, ibuffer := s1.ibuffer }) ∧
    (c % 256 ≠ 0 →
      (∀ b ∈ (queued s).takeWhile (fun k => decide ((env._rl_keymap k).type = ISFUNC ∧
        (env._rl_keymap k).function = env.rl_insert)), b ≠ 0) →
      ((c % 256) :: (queued s).takeWhile (fun k => decide ((env._rl_keymap k).type = ISFUNC ∧
          (env._rl_keymap k).function = env.rl_insert))).takeWhile (fun b => decide (b ≠ 0))
        = (c % 256) :: (queued s).takeWhile (fun k => decide
            ((env._rl_keymap k).type = ISFUNC ∧
              (env._rl_keymap k).function = env.rl_insert))) ∧
    (∀ t key string s2, typein_loop env fuel s 0 [c % 256] = some (t, key, string, s2) →
      t ≠ 0 → (_rl_unget_char s2 key).1 = 1) := by
  have hP : (fun k => decide ((env._rl_keymap k).type = ISFUNC ∧
      (env._rl_keymap k).function = env.rl_insert)) = bound_to_insert env := rfl
  rw [hP] at hfit ⊢
  obtain ⟨t, key1, s1, e, r1, r2, r3, r3b, r4⟩ :=
    typein_loop_spec env fuel s 0 [c % 256] hrange hfuel hbytes
  have hframe := typein_loop_frame env fuel s 0 [c % 256] _ _ _ _ e
  have hlen := queued_length_int s
  have hlt := queuedCount_lt s
  have hunget : t = 1 → (queued s).dropWhile (bound_to_insert env) = key1 :: queued s1 →
      (_rl_unget_char s1 key1).1 = 1 ∧ IndicesInRange (_rl_unget_char s1 key1).2 ∧
      queued (_rl_unget_char s1 key1).2 = key1 :: queued s1 ∧
      (_rl_unget_char s1 key1).2 = { s1 with
        pop_index := (_rl_unget_char s1 key1).2.pop_index,
        ibuffer := (_rl_unget_char s1 key1).2.ibuffer } := by
    intro _ hd
    have hl1 := queued_length_int s1
    have hle : ((queued s).dropWhile (bound_to_insert env)).length ≤ (queued s).length :=
      (List.dropWhile_sublist _).length_le
    rw [hd, List.length_cons] at hle
    have hroom : queuedCount s1 < 511 := by omega
    obtain ⟨u1, u2, _, u4⟩ := _rl_unget_char_ok s1 key1 r1 hroom
    have hk : 0 ≤ key1 ∧ key1 ≤ 255 := by
      apply hbytes
      have : key1 ∈ (queued s).dropWhile (bound_to_insert env) := by
        rw [hd]; exact List.mem_cons_self _ _
      exact (List.dropWhile_sublist _).subset this
    have hkb : key1 % 256 = key1 := by omega
    rw [hkb] at u4
    have hne : ibuffer_space s1 ≠ 0 := by
      have := ibuffer_space_eq s1 r1
      have := queuedCount_nonneg s1
      omega
    refine ⟨u1, u2, u4, ?_⟩
    rw [_rl_unget_char_eq s1 key1 hne]
  have hin : ((([c % 256] ++ (queued s).takeWhile (bound_to_insert env)).length : Nat) : Int)
      < typein_alloc := by
    rw [List.length_append, List.length_singleton]
    unfold typein_alloc ibuffer_len ibuffer_size
    omega
  have hin1 : (((c % 256 :: (queued s).takeWhile (bound_to_insert env)).length : Nat) : Int)
      < typein_alloc := hin
  refine ⟨?_, ?_, ?_⟩
  · rcases r4 with ⟨ht, hd, hq⟩ | ⟨ht, hd⟩
    · refine ⟨s1, ?_, by rw [hd, hq], r1, ?_⟩
      · simp only [_rl_insert_typein, e, hin1, if_true, ht, ne_eq, not_true_eq_false, if_false,
          call_insert_text, logged, c_string, List.singleton_append, r3]
      · rw [hframe]
    · obtain ⟨_, u2, u3, u4⟩ := hunget ht hd
      refine ⟨(_rl_unget_char s1 key1).2, ?_, by rw [hd, u3], u2, ?_⟩
      · have hc : (_rl_unget_char s1 key1).2.calls = s.calls := by
          rw [u4]; exact r3
        simp only [_rl_insert_typein, e, hin1, if_true, ht, ne_eq, one_ne_zero,
          not_false_eq_true, call_insert_text, logged, c_string, List.singleton_append, hc]
      · rw [u4, hframe]
  · intro hc hz
    rw [List.takeWhile_cons_of_pos (by simpa using hc)]
    congr 1
    rw [List.takeWhile_eq_self_iff]
    intro b hb
    simpa using hz b hb
  · intro t' key' string' s2 h ht'
    rw [e] at h
    injection h with h
    injection h with h1 h
    injection h with h2 h
    injection h with h3 h4
    subst h1 h2 h4
    rcases r4 with ⟨ht, _, _⟩ | ⟨ht, hd⟩
    · exact absurd ht ht'
    · exact (hunget ht hd).1

/-- Witness of C9 (amended) on the test double: over the queued bytes `h`,
`i`, newline and `x`, `_rl_insert_typein ('a')` calls `rl_insert_text` on the
string `ahi` and on nothing else, and leaves the newline and `x` queued. -/
theorem C9_insert_typein_witness :
    ∃ s1 : Session (List Int),
      _rl_insert_typein streamEnv 5
          { emptySession (fun i => if i = 0 then 104 else if i = 1 then 105
              else if i = 2 then 10 else 120) [] with push_index := 4 } 97
        = .inserted { streamEnv.rl_insert_text [97, 104, 105] s1 with
            calls := [.insert_text [97, 104, 105]] } ∧
      queued s1 = [10, 120] :=
  have h := (C9_insert_typein streamEnv 5
    { emptySession (fun i => if i = 0 then 104 else if i = 1 then 105
        else if i = 2 then 10 else 120) [] with push_index := 4 } 97
    (by decide) (by decide) (by decide) (by decide)).1
  Exists.elim h (fun s1 hs => ⟨s1, hs.1, hs.2.1⟩)

/-! ## The multibyte assembler -/

theorem read_mbchar_loop_bound {σ : Type} (env : Env Ω) (dec : Decoder σ) (fuel : Nat)
    (n : Nat) : ∀ (s : Session Ω) (mbchar : List Int) (ps : σ) (r : Int) (mb : List Int)
    (s1 : Session Ω), read_mbchar_loop env dec fuel n s mbchar ps = .ret (r, mb, s1) →
    (r = mb.length ∧ mb.length ≤ mbchar.length + n ∧ mbchar <+: mb) ∨
    (r = 1 ∧ 1 ≤ n ∧ mb.head? = some 0 ∧ mbchar.length < mb.length) := by
  induction n with
  | zero =>
    intro s mbchar ps r mb s1 h
    simp only [read_mbchar_loop] at h
    injection h with h; injection h with h1 h; injection h with h2 h3
    subst h1 h2
    exact Or.inl ⟨rfl, by omega, List.prefix_refl _⟩
  | succ n ih =>
    intro s mbchar ps r mb s1 h
    rw [read_mbchar_loop] at h
    split at h
    · exact Outcome.noConfusion h
    · exact Outcome.noConfusion h
    · rename_i c s2 _
      split at h
      · injection h with h; injection h with h1 h; injection h with h2 h3
        subst h1 h2
        exact Or.inl ⟨rfl, by omega, List.prefix_refl _⟩
      · split at h
        · injection h with h; injection h with h1 h; injection h with h2 h3
          subst h1 h2
          exact Or.inl ⟨rfl, by simp, List.prefix_append _ _⟩
        · rcases ih _ _ _ _ _ _ h with ⟨a1, a2, a3⟩ | ⟨a1, a2, a3, a4⟩
          · refine Or.inl ⟨a1, ?_, (List.prefix_append _ _).trans a3⟩
            simp only [List.length_append, List.length_singleton] at a2
            omega
          · refine Or.inr ⟨a1, by omega, a3, ?_⟩
            simp only [List.length_append, List.length_singleton] at a4
            omega
        · injection h with h; injection h with h1 h; injection h with h2 h3
          subst h1 h2
          refine Or.inr ⟨rfl, by omega, ?_, by simp⟩
          cases mbchar <;> simp
        · injection h with h; injection h with h1 h; injection h with h2 h3
          subst h1 h2
          exact Or.inl ⟨rfl, by simp, List.prefix_append _ _⟩


theorem read_mbchar_step {σ : Type} (env : Env Ω) (dec : Decoder σ) (fuel m : Nat)
    (s t : Session Ω) (pre : List Int) (u : Int) (hb : 0 ≤ u ∧ u ≤ 255)
    (hk : keyRead env fuel (decide (pre.length = 0)) s u t) :
    read_mbchar_loop env dec fuel (m + 1) s pre dec.zero
      = mbFinish env dec fuel (dec.mbrtowc (pre ++ [u]) dec.zero).1 m t (pre ++ [u]) := by
  have hm : u % 256 = u := by omega
  have hn : ¬ u < 0 := by omega
  have hread : (if pre.length = 0 then Outcome.ret (call_bracketed_read_key env s)
      else rl_read_key env fuel s) = .ret (u, t) := by
    by_cases h : pre.length = 0
    · simp only [keyRead, h, decide_True, if_true] at hk
      simp only [h, if_true, call_bracketed_read_key, logged, hk.1, hk.2]
    · simp only [keyRead, h, decide_False, Bool.false_eq_true, if_false] at hk
      simp only [h, if_false, hk]
  rw [read_mbchar_loop, hread]
  simp only [hn, if_false, hm]
  cases (dec.mbrtowc (pre ++ [u]) dec.zero).1 <;> simp [mbFinish]

theorem read_mbchar_step_neg {σ : Type} (env : Env Ω) (dec : Decoder σ) (fuel m : Nat)
    (s t : Session Ω) (pre : List Int) (c : Int) (hc : c < 0)
    (hk : keyRead env fuel (decide (pre.length = 0)) s c t) :
    read_mbchar_loop env dec fuel (m + 1) s pre dec.zero = .ret (pre.length, pre, t) := by
  have hread : (if pre.length = 0 then Outcome.ret (call_bracketed_read_key env s)
      else rl_read_key env fuel s) = .ret (c, t) := by
    by_cases h : pre.length = 0
    · simp only [keyRead, h, decide_True, if_true] at hk
      simp only [h, if_true, call_bracketed_read_key, logged, hk.1, hk.2]
    · simp only [keyRead, h, decide_False, Bool.false_eq_true, if_false] at hk
      simp only [h, if_false, hk]
  rw [read_mbchar_loop, hread]
  simp only [hc, if_true]

theorem read_mbchar_run {σ : Type} (env : Env Ω) (dec : Decoder σ) (fuel : Nat)
    (rs : List (Int × Session Ω)) : ∀ (m : Nat) (s : Session Ω) (pre : List Int),
    rs ≠ [] → deliversKeys env fuel (decide (pre.length = 0)) s rs →
    (∀ r ∈ rs, 0 ≤ r.1 ∧ r.1 ≤ 255) → rs.length ≤ m →
    (∀ k, 0 < k → k < rs.length →
      (dec.mbrtowc (pre ++ (rs.map Prod.fst).take k) dec.zero).1 = .incomplete) →
    read_mbchar_loop env dec fuel m s pre dec.zero
      = mbFinish env dec fuel (dec.mbrtowc (pre ++ rs.map Prod.fst) dec.zero).1
          (m - rs.length) (lastSession s rs) (pre ++ rs.map Prod.fst) := by
  induction rs with
  | nil => intro m s pre h; exact absurd rfl h
  | cons r rest ih =>
    intro m s pre _ hd hb hm hinc
    obtain ⟨u, t⟩ := r
    obtain ⟨m1, rfl⟩ : ∃ m1, m = m1 + 1 := ⟨m - 1, by simp at hm; omega⟩
    have hstep := read_mbchar_step env dec fuel m1 s t pre u
      (hb (u, t) (List.mem_cons_self _ _)) hd.1
    cases rest with
    | nil =>
      rw [hstep]
      simp [lastSession]
    | cons r2 rest2 =>
      have h1 := hinc 1 (by omega) (by simp)
      simp only [List.map_cons, List.take_succ_cons, List.take_zero] at h1
      rw [hstep, h1]
      have hflag : decide ((pre ++ [u]).length = 0) = false := by simp
      have hrec := ih m1 t (pre ++ [u]) (by simp) (by rw [hflag]; exact hd.2)
        (fun r hr => hb r (List.mem_cons_of_mem _ hr)) (by simp at hm ⊢; omega)
        (by
          intro k hk0 hk1
          have := hinc (k + 1) (by omega) (by simp at hk1 ⊢; omega)
          simpa [List.take_succ_cons] using this)
      have e1 : pre ++ [u] ++ List.map Prod.fst (r2 :: rest2)
          = pre ++ List.map Prod.fst ((u, t) :: r2 :: rest2) := by simp
      have e2 : m1 - (r2 :: rest2).length = m1 + 1 - ((u, t) :: r2 :: rest2).length := by simp
      have e3 : lastSession t (r2 :: rest2) = lastSession s ((u, t) :: r2 :: rest2) := rfl
      rw [e1, e2, e3] at hrec
      rw [← hrec]
      rfl

/-- C10: `_rl_read_mbchar` returns the number of units it consumed from the key
reader, never more than `size`, and 1 with `mbchar[0] = 0` when the decoder
reports a null character.  Let the key reads deliver the bytes of `reads` in
turn (the first through `_rl_bracketed_read_key`, the others through
`rl_read_key`), no more of them than `size`, the decoder reporting an
incomplete sequence on every proper prefix.  When the decoder reports an
invalid sequence or a complete character on all of them, or an incomplete
sequence with `size` units read, the call returns their number with the units
stored in order, in the session the last read left; when it reports a null
character, the call returns 1 with `mbchar[0] = 0`; when the next key read
delivers a negative value, the call returns the number of units read before
it.  Whatever is read, a returned count lies between 0 and `size`. -/
theorem C10_read_mbchar {σ : Type} (env : Env Ω) (dec : Decoder σ) (fuel : Nat)
    (s : Session Ω) (size : Int) (reads : List (Int × Session Ω))
    (hreads : deliversKeys env fuel true s reads)
    (hbytes : ∀ r ∈ reads, 0 ≤ r.1 ∧ r.1 ≤ 255)
    (hsize : (reads.length : Int) ≤ size)
    (hinc : ∀ k, 0 < k → k < reads.length →
      (dec.mbrtowc ((reads.map Prod.fst).take k) dec.zero).1 = .incomplete) :
    (reads ≠ [] →
      ((dec.mbrtowc (reads.map Prod.fst) dec.zero).1 = .invalid ∨
        (∃ n, (dec.mbrtowc (reads.map Prod.fst) dec.zero).1 = .complete n) ∨
        ((dec.mbrtowc (reads.map Prod.fst) dec.zero).1 = .incomplete ∧
          (reads.length : Int) = size)) →
      _rl_read_mbchar env dec fuel s size
        = .ret ((reads.length : Int), reads.map Prod.fst, lastSession s reads)) ∧
    (reads ≠ [] → (dec.mbrtowc (reads.map Prod.fst) dec.zero).1 = .null →
      _rl_read_mbchar env dec fuel s size
        = .ret (1, (reads.map Prod.fst).set 0 0, lastSession s reads) ∧
      ((reads.map Prod.fst).set 0 0).head? = some 0) ∧
    ((reads = [] ∨ (dec.mbrtowc (reads.map Prod.fst) dec.zero).1 = .incomplete) →
      (reads.length : Int) < size →
      ∀ c t, c < 0 → keyRead env fuel (decide (reads.length = 0)) (lastSession s reads) c t →
      _rl_read_mbchar env dec fuel s size
        = .ret ((reads.length : Int), reads.map Prod.fst, t)) ∧
    (∀ r mb t, _rl_read_mbchar env dec fuel s size = .ret (r, mb, t) → 0 ≤ r ∧ r ≤ size) := by
  have h0 : 0 ≤ size := by omega
  have hsz : ((size.toNat : Nat) : Int) = size := Int.toNat_of_nonneg h0
  have hle : reads.length ≤ size.toNat := by omega
  have hrun : reads ≠ [] →
      _rl_read_mbchar env dec fuel s size
        = mbFinish env dec fuel (dec.mbrtowc (reads.map Prod.fst) dec.zero).1
            (size.toNat - reads.length) (lastSession s reads) (reads.map Prod.fst) := by
    intro hne
    have := read_mbchar_run env dec fuel reads size.toNat s [] hne hreads hbytes hle
      (by simpa using hinc)
    simpa [_rl_read_mbchar] using this
  refine ⟨?_, ?_, ?_, ?_⟩
  · intro hne hfin
    rw [hrun hne]
    rcases hfin with h | ⟨n, h⟩ | ⟨h, hn⟩
    · simp [mbFinish, h]
    · simp [mbFinish, h]
    · have hz : size.toNat - reads.length = 0 := by omega
      simp [mbFinish, h, hz, read_mbchar_loop]
  · intro hne h
    rw [hrun hne]
    refine ⟨by simp [mbFinish, h], ?_⟩
    cases hr : reads with
    | nil => exact absurd hr hne
    | cons r rest => simp
  · intro hcase hlt c t hc hk
    obtain ⟨m1, hm1⟩ : ∃ m1, size.toNat - reads.length = m1 + 1 :=
      ⟨size.toNat - reads.length - 1, by omega⟩
    by_cases hne : reads = []
    · subst hne
      simp only [List.length_nil, Nat.sub_zero] at hm1
      simp only [List.length_nil, lastSession, List.map_nil] at hk ⊢
      rw [_rl_read_mbchar, hm1]
      exact read_mbchar_step_neg env dec fuel m1 s t [] c hc hk
    · have hinc1 : (dec.mbrtowc (reads.map Prod.fst) dec.zero).1 = .incomplete := by
        rcases hcase with h | h
        · exact absurd h hne
        · exact h
      rw [hrun hne]
      simp only [mbFinish, hinc1, hm1]
      have hk1 : keyRead env fuel (decide ((reads.map Prod.fst).length = 0))
          (lastSession s reads) c t := by rw [List.length_map]; exact hk
      have := read_mbchar_step_neg env dec fuel m1 (lastSession s reads) t
        (reads.map Prod.fst) c hc hk1
      simpa using this
  · intro r mb t h
    rcases read_mbchar_loop_bound env dec fuel size.toNat s [] dec.zero r mb t h with
      ⟨a1, a2, _⟩ | ⟨a1, a2, a3, _⟩
    · simp only [List.length_nil, Nat.zero_add] at a2
      exact ⟨by omega, by omega⟩
    · exact ⟨by omega, by omega⟩

/-- Witness of C10 on the test doubles: the three units 226, 130, 172 waiting
on the stream are read by `_rl_bracketed_read_key` and two `rl_read_key` calls
and returned with the count 3, the byte 65 staying on the stream; the
invalid first unit 255 gives the count 1 after one read, and so does the null
unit 0, with `mbchar[0] = 0`. -/
theorem C10_read_mbchar_witness :
    (_rl_read_mbchar streamEnv testDecoder 0 (streamSession [226, 130, 172, 65] []) 8).toOption.map
      (fun r => (r.1, r.2.1, r.2.2.calls, r.2.2.world))
      = some (3, [226, 130, 172],
          [.bracketed_read_key, .next_macro_key, .getc, .next_macro_key, .getc], [65]) ∧
    (_rl_read_mbchar streamEnv testDecoder 0 (streamSession [255, 65] []) 8).toOption.map
      (fun r => (r.1, r.2.1, r.2.2.calls, r.2.2.world))
      = some (1, [255], [.bracketed_read_key], [65]) ∧
    (_rl_read_mbchar streamEnv testDecoder 0 (streamSession [0, 65] []) 8).toOption.map
      (fun r => (r.1, r.2.1, r.2.2.calls, r.2.2.world))
      = some (1, [0], [.bracketed_read_key], [65]) := by
  refine ⟨?_, ?_, ?_⟩
  rw [(C10_read_mbchar streamEnv testDecoder 0 (streamSession [226, 130, 172, 65] []) 8
    [(226, streamSession [130, 172, 65] [.bracketed_read_key]),
     (130, streamSession [172, 65] [.bracketed_read_key, .next_macro_key, .getc]),
     (172, streamSession [65]
        [.bracketed_read_key, .next_macro_key, .getc, .next_macro_key, .getc])]
    ⟨⟨rfl, rfl⟩, rfl, rfl, trivial⟩ (by decide) (by decide)
    (fun k h0 h3 =>
      match k, h0, h3 with
      | 0, h, _ => absurd h (by decide)
      | 1, _, _ => rfl
      | 2, _, _ => rfl
      | n + 3, _, h => absurd h (by simp))).1
    (List.cons_ne_nil _ _) (Or.inr (Or.inl ⟨3, rfl⟩))]
  decide
  rw [(C10_read_mbchar streamEnv testDecoder 0 (streamSession [255, 65] []) 8
    [(255, streamSession [65] [.bracketed_read_key])]
    ⟨⟨rfl, rfl⟩, trivial⟩ (by decide) (by decide)
    (fun k h0 h1 => absurd h1 (by simp; omega))).1
    (List.cons_ne_nil _ _) (Or.inl rfl)]
  decide
  rw [((C10_read_mbchar streamEnv testDecoder 0 (streamSession [0, 65] []) 8
    [(0, streamSession [65] [.bracketed_read_key])]
    ⟨⟨rfl, rfl⟩, trivial⟩ (by decide) (by decide)
    (fun k h0 h1 => absurd h1 (by simp; omega))).2.1
    (List.cons_ne_nil _ _) rfl).1]
  decide

/-! ## The invariant of the buffer -/

theorem runBufOp_buffered (s : Session Ω) (op : BufOp) (h : IndicesInRange s) :
    IndicesInRange (runBufOp s op).2 ∧
    queuedCount (runBufOp s op).2 = bufferedStep (queuedCount s) op (runBufOp s op).1.1 := by
  have h0 := queuedCount_nonneg s
  have hlt := queuedCount_lt s
  cases op with
  | stuff b =>
    by_cases hf : queuedCount s = 511
    · have e := rl_stuff_char_full s b h hf
      simp only [runBufOp, bufferedStep, e]
      exact ⟨h, by simp⟩
    · obtain ⟨h1, h2, h3, _⟩ := rl_stuff_char_ok s b h (by omega)
      simp only [runBufOp, bufferedStep, h1]
      exact ⟨h2, by simpa using h3⟩
  | unget b =>
    by_cases hf : queuedCount s = 511
    · have e := _rl_unget_char_full s b h hf
      simp only [runBufOp, bufferedStep, e]
      exact ⟨h, by simp⟩
    · obtain ⟨h1, h2, h3, _⟩ := _rl_unget_char_ok s b h (by omega)
      simp only [runBufOp, bufferedStep, h1]
      exact ⟨h2, by simpa using h3⟩
  | get =>
    by_cases hz : queuedCount s = 0
    · have e := rl_get_char_empty s 0 h hz
      simp only [runBufOp, bufferedStep, e]
      exact ⟨h, by simp⟩
    · obtain ⟨h1, h2, h3, _⟩ := rl_get_char_ok s 0 h (by omega)
      simp only [runBufOp, bufferedStep, h1]
      exact ⟨h2, by simpa using h3⟩

theorem finalSession_buffered (ops : List BufOp) : ∀ s : Session Ω, IndicesInRange s →
    IndicesInRange (finalSession s ops) ∧
    queuedCount (finalSession s ops) = bufferedAfter s (queuedCount s) ops := by
  induction ops with
  | nil => intro s h; exact ⟨h, rfl⟩
  | cons op ops ih =>
    intro s h
    obtain ⟨h1, h2⟩ := runBufOp_buffered s op h
    obtain ⟨i1, i2⟩ := ih (runBufOp s op).2 h1
    simp only [finalSession, bufferedAfter]
    exact ⟨i1, by rw [i2, h2]⟩


/-- C12: in every state reached from an initial one (`push_index` and
`pop_index` both 0) by any sequence of `rl_stuff_char`, `rl_get_char` and
`_rl_unget_char` calls, on any keys, both indices lie in 0..511; the number of
buffered bytes (one more for each stuff or unget that returned non-zero, one
less for each get that did) is `(push_index - pop_index) mod 512`, lies in
0..511 and is the length of the queued contents; `ibuffer_space ()` is 511
minus that number; and `_rl_any_typein` and `_rl_pushed_input_available` are
non-zero exactly when that number is positive. -/
theorem C12_buffer_invariant (s0 : Session Ω) (ops : List BufOp)
    (hpush : s0.push_index = 0) (hpop : s0.pop_index = 0) :
    (0 ≤ (finalSession s0 ops).pop_index ∧ (finalSession s0 ops).pop_index ≤ 511 ∧
      0 ≤ (finalSession s0 ops).push_index ∧ (finalSession s0 ops).push_index ≤ 511) ∧
    bufferedAfter s0 0 ops
      = ((finalSession s0 ops).push_index - (finalSession s0 ops).pop_index) % 512 ∧
    (0 ≤ bufferedAfter s0 0 ops ∧ bufferedAfter s0 0 ops ≤ 511) ∧
    ((queued (finalSession s0 ops)).length : Int) = bufferedAfter s0 0 ops ∧
    ibuffer_space (finalSession s0 ops) = 511 - bufferedAfter s0 0 ops ∧
    (_rl_any_typein (finalSession s0 ops) ≠ 0 ↔ 0 < bufferedAfter s0 0 ops) ∧
    (_rl_pushed_input_available (finalSession s0 ops) ≠ 0 ↔ 0 < bufferedAfter s0 0 ops) := by
  have hr0 : IndicesInRange s0 := by
    simp [IndicesInRange, hpush, hpop, ibuffer_len, ibuffer_size]
  have hc0 : queuedCount s0 = 0 := by simp [queuedCount, hpush, hpop]
  obtain ⟨hr, hc⟩ := finalSession_buffered ops s0 hr0
  rw [hc0] at hc
  have hsp := ibuffer_space_eq _ hr
  have hn := queuedCount_nonneg (finalSession s0 ops)
  have hl := queuedCount_lt (finalSession s0 ops)
  have hlen := queued_length_int (finalSession s0 ops)
  rw [hc] at hsp hn hl hlen
  have hcnt : bufferedAfter s0 0 ops
      = ((finalSession s0 ops).push_index - (finalSession s0 ops).pop_index) % 512 := by
    rw [← hc]; rfl
  have hr' := hr
  unfold IndicesInRange ibuffer_len ibuffer_size at hr'
  have hany : (finalSession s0 ops).push_index ≠ (finalSession s0 ops).pop_index
      ↔ 0 < bufferedAfter s0 0 ops := by
    rw [hcnt]; omega
  refine ⟨⟨hr'.1, by omega, hr'.2.2.1, by omega⟩, hcnt, ⟨hn, by omega⟩, hlen, hsp, ?_, ?_⟩
  · rw [← hany]
    unfold _rl_any_typein
    split <;> simp_all
  · rw [← hany]
    unfold _rl_pushed_input_available
    split <;> simp_all

/-- Witness of C12: from the empty buffer, a stuffed byte, a stuffed `EOF`, an
ungot byte and one `rl_get_char` leave two bytes buffered, with `pop_index`
back on 0, `push_index` on 2 and 509 free slots. -/
theorem C12_buffer_invariant_witness :
    bufferedAfter (emptySession (fun _ => 0) ()) 0 [.stuff 97, .stuff EOF, .unget 5, .get] = 2 ∧
    (finalSession (emptySession (fun _ => 0) ()) [.stuff 97, .stuff EOF, .unget 5, .get]).push_index
      = 2 ∧
    ibuffer_space (finalSession (emptySession (fun _ => 0) ())
      [.stuff 97, .stuff EOF, .unget 5, .get])
      = 511 - bufferedAfter (emptySession (fun _ => 0) ()) 0
          [.stuff 97, .stuff EOF, .unget 5, .get] :=
  ⟨by decide, by decide,
    (C12_buffer_invariant (emptySession (fun _ => 0) ())
      [.stuff 97, .stuff EOF, .unget 5, .get] rfl rfl).2.2.2.2.1⟩


/-! ## Gathering over a buffer that is not empty -/

theorem ibuffer_space_lt_of_nonempty (s : Session Ω) (h : IndicesInRange s)
    (hne : s.push_index ≠ s.pop_index) : ibuffer_space s < ibuffer_len := by
  unfold IndicesInRange ibuffer_len ibuffer_size at h
  unfold ibuffer_space ibuffer_len ibuffer_size
  split <;> omega

theorem rl_gather_tyi_fionread (env : Env Ω) (s : Session Ω)
    (hsel : 0 < (env.select s).1)
    (hio : (env.ioctl_fionread (gather_before_ioctl env s)).1 ≠ -1)
    (hnon : ibuffer_space (gather_after_ioctl env s) < ibuffer_len) :
    rl_gather_tyi env s =
      .ret (if (env.ioctl_fionread (gather_before_ioctl env s)).2.1 ≤ 0 then 0 else 1,
        gather_after_ioctl env s) := by
  have hsel' : ¬ (env.select s).1 ≤ 0 := by omega
  unfold gather_before_ioctl at hio
  unfold gather_after_ioctl gather_before_ioctl at hnon ⊢
  simp only [rl_gather_tyi, hsel', if_false, hio, false_and, gather_tail]
  split
  · rfl
  · simp only [hnon, if_true, ne_eq, hio, not_false_eq_true, Int.toNat_zero, gather_loop]

theorem rl_gather_tyi_probe_eof (env : Env Ω) (s : Session Ω)
    (hsel : 0 < (env.select s).1)
    (hio : (env.ioctl_fionread (gather_before_ioctl env s)).1 = -1)
    (herr : (gather_after_ioctl env s).errno ≠ EIO)
    (hrd : (env.read (gather_before_read env s)).1 = 0) :
    rl_gather_tyi env s = .ret (0, (rl_stuff_char (gather_after_probe env s) EOF).2) := by
  have hsel' : ¬ (env.select s).1 ≤ 0 := by omega
  unfold gather_before_ioctl at hio
  unfold gather_after_probe
  unfold gather_before_read at hrd ⊢
  unfold gather_after_ioctl gather_before_ioctl at herr hrd ⊢
  simp only [rl_gather_tyi, hsel', if_false, hio, true_and, herr, if_true, hrd,
    Int.reduceNeg, zero_ne_one, false_and]
  rfl

theorem rl_gather_tyi_probe_failed (env : Env Ω) (s : Session Ω)
    (hsel : 0 < (env.select s).1)
    (hio : (env.ioctl_fionread (gather_before_ioctl env s)).1 = -1)
    (herr : (gather_after_ioctl env s).errno ≠ EIO)
    (hrd : (env.read (gather_before_read env s)).1 = -1) :
    ∃ r, rl_gather_tyi env s = .ret (r, gather_after_probe env s) := by
  have hsel' : ¬ (env.select s).1 ≤ 0 := by omega
  unfold gather_before_ioctl at hio
  unfold gather_after_probe
  unfold gather_before_read at hrd ⊢
  unfold gather_after_ioctl gather_before_ioctl at herr hrd ⊢
  simp only [rl_gather_tyi, hsel', if_false, hio, true_and, herr, if_true, hrd,
    Int.reduceNeg, gather_tail]
  split
  · exact ⟨0, rfl⟩
  · split
    · exact ⟨-1, rfl⟩
    · exact ⟨0, by simp⟩

/-- The one call of `rl_gather_tyi`, in the loop of `rl_read_key`, follows an
`rl_get_char` that returned 0: the session it is entered in is the one
`rl_get_char` was called in, and its buffer is empty. -/
theorem rl_get_char_zero (s : Session Ω) (key : Int) (h : (rl_get_char s key).1 = 0) :
    (rl_get_char s key).2.2 = s ∧ s.push_index = s.pop_index := by
  by_cases he : s.push_index = s.pop_index
  · exact ⟨by simp [rl_get_char, he], he⟩
  · rw [rl_get_char_eq s key he] at h
    exact absurd h one_ne_zero

/-- The function `rl_gather_tyi` taken alone, run over a buffer holding two
bytes while the `FIONREAD` query fails with `ENOTTY`: at the end of the stream
the probe reads zero bytes and the call stuffs a newline, so that `push_index`
moves from 2 to 3 and `rl_pending_input` becomes `EOF`; and when the stream
holds the byte 97, the probe reads it and the call drops it: the buffer is as
before, the stream is one byte shorter, and `read` was called once. -/
theorem rl_gather_tyi_probe_evaluation :
    (rl_gather_tyi probeEnv
        { emptySession (fun _ => 120) [] with push_index := 2 }).toOption.map
      (fun r => (r.1, r.2.push_index, r.2.pop_index, queued r.2, r.2.rl_pending_input))
      = some (0, 3, 0, [120, 120, 10], EOF) ∧
    (rl_gather_tyi probeEnv
        { emptySession (fun _ => 120) [97] with push_index := 2 }).toOption.map
      (fun r => (r.1, r.2.push_index, r.2.pop_index, queued r.2))
      = some (1, 2, 0, [120, 120]) ∧
    (rl_gather_tyi probeEnv
        { emptySession (fun _ => 120) [97] with push_index := 2 }).toOption.map
      (fun r => (r.2.world, r.2.calls.count .read, r.2.calls.count .getc))
      = some ([], 1, 0) := by
  refine ⟨?_, ?_, ?_⟩ <;> decide

/-- The function `rl_gather_tyi` taken alone, path by path.  It returns the
session as the system calls left it, having called neither the byte reader nor
`read`, when `select` reports no input, when the `FIONREAD` query fails with
`EIO`, and when that query does not fail and the buffer is not empty.  When the
query fails with another `errno` and the non-blocking probe reads zero bytes,
it returns 0 after `rl_stuff_char (EOF)`; when the probe `read` fails, it
returns the session as the probe left it. -/
theorem rl_gather_tyi_nonempty_paths (env : Env Ω) (s : Session Ω) :
    ((env.select s).1 ≤ 0 → rl_gather_tyi env s = .ret (0, logged s .select (env.select s).2)) ∧
    (0 < (env.select s).1 → (env.ioctl_fionread (gather_before_ioctl env s)).1 = -1 →
      (gather_after_ioctl env s).errno = EIO →
      rl_gather_tyi env s = .ret (-1, gather_after_ioctl env s)) ∧
    (0 < (env.select s).1 → (env.ioctl_fionread (gather_before_ioctl env s)).1 ≠ -1 →
      IndicesInRange (gather_after_ioctl env s) →
      (gather_after_ioctl env s).push_index ≠ (gather_after_ioctl env s).pop_index →
      rl_gather_tyi env s =
        .ret (if (env.ioctl_fionread (gather_before_ioctl env s)).2.1 ≤ 0 then 0 else 1,
          gather_after_ioctl env s) ∧
      (gather_after_ioctl env s).calls = s.calls ++ [.select, .ioctl_fionread]) ∧
    (0 < (env.select s).1 → (env.ioctl_fionread (gather_before_ioctl env s)).1 = -1 →
      (gather_after_ioctl env s).errno ≠ EIO →
      (env.read (gather_before_read env s)).1 = 0 →
      rl_gather_tyi env s = .ret (0, (rl_stuff_char (gather_after_probe env s) EOF).2)) ∧
    (0 < (env.select s).1 → (env.ioctl_fionread (gather_before_ioctl env s)).1 = -1 →
      (gather_after_ioctl env s).errno ≠ EIO →
      (env.read (gather_before_read env s)).1 = -1 →
      ∃ r, rl_gather_tyi env s = .ret (r, gather_after_probe env s)) := by
  refine ⟨?_, ?_, ?_, ?_, ?_⟩
  · intro hsel
    simp only [rl_gather_tyi, hsel, if_true]
  · intro hsel hio herr
    have hsel' : ¬ (env.select s).1 ≤ 0 := by omega
    unfold gather_before_ioctl at hio
    unfold gather_after_ioctl gather_before_ioctl at herr ⊢
    simp only [rl_gather_tyi, hsel', if_false, hio, herr, and_self, if_true]
  · intro hsel hio hr hne
    refine ⟨rl_gather_tyi_fionread env s hsel hio (ibuffer_space_lt_of_nonempty _ hr hne), ?_⟩
    simp [gather_after_ioctl, gather_before_ioctl, logged]
  · intro hsel hio herr hrd
    exact rl_gather_tyi_probe_eof env s hsel hio herr hrd
  · intro hsel hio herr hrd
    exact rl_gather_tyi_probe_failed env s hsel hio herr hrd

/-! ## The writes into the temporary string -/

theorem typein_writes_eq (env : Env Ω) (fuel : Nat) (s : Session Ω) (c : Int)
    (hrange : IndicesInRange s) (hbytes : ∀ b ∈ queued s, 0 ≤ b ∧ b ≤ 255)
    (hfuel : (queued s).length < fuel) :
    typein_writes env fuel s c
      = some (List.range (((queued s).takeWhile (bound_to_insert env)).length + 2)) := by
  obtain ⟨t, key1, s1, e, _⟩ := typein_loop_spec env fuel s 0 [c % 256] hrange hfuel hbytes
  simp only [typein_writes, e, List.length_append, List.length_singleton]
  congr 2
  omega

/-- When the buffer holds fewer than 511 bytes, every write of
`_rl_insert_typein` into `string` is below the size of the allocation. -/
theorem typein_writes_in_bounds (env : Env Ω) (fuel : Nat) (s : Session Ω) (c : Int)
    (hrange : IndicesInRange s) (hbytes : ∀ b ∈ queued s, 0 ≤ b ∧ b ≤ 255)
    (hfuel : (queued s).length < fuel) (hroom : queuedCount s < 511) :
    ∃ l, typein_writes env fuel s c = some l ∧ ∀ i ∈ l, (i : Int) < typein_alloc := by
  refine ⟨_, typein_writes_eq env fuel s c hrange hbytes hfuel, ?_⟩
  intro i hi
  rw [List.mem_range] at hi
  have h1 : ((queued s).takeWhile (bound_to_insert env)).length ≤ (queued s).length :=
    (List.takeWhile_sublist _).length_le
  have h2 := queued_length_int s
  unfold typein_alloc ibuffer_len ibuffer_size
  omega

/-- C13, on the code: in the state that 511 calls of `rl_stuff_char (97)`
reach from the empty buffer, with a keymap that binds the byte 97 to
`rl_insert`, `_rl_insert_typein (97)` writes `string[0]` to `string[511]` and
then the terminating NUL at `string[512]`, while the allocation has
`ibuffer_len + 1 = 512` bytes: the last write is one past its end. -/
theorem C13_nul_past_allocation :
    typein_writes streamEnv 512
        (finalSession (emptySession (fun _ => 0) []) (List.replicate 511 (.stuff 97))) 97
      = some (List.range (512 + 1)) ∧
    typein_alloc = 512 := by
  refine ⟨?_, by decide⟩
  have hr0 : IndicesInRange (emptySession (fun _ => 0) ([] : List Int)) := by decide
  have hc0 : queuedCount (emptySession (fun _ => 0) ([] : List Int)) = 0 := by decide
  have hq0 : queued (emptySession (fun _ => 0) ([] : List Int)) = [] := by decide
  obtain ⟨_, a2, a3⟩ := stuff_replicate 97 (by omega) 511
    (emptySession (fun _ => 0) ([] : List Int)) hr0 (by rw [hc0]; norm_num)
  rw [hq0, List.nil_append] at a3
  generalize finalSession (emptySession (fun _ => 0) ([] : List Int))
    (List.replicate 511 (.stuff 97)) = S at a2 a3 ⊢
  have hb : ∀ b ∈ queued S, 0 ≤ b ∧ b ≤ 255 := by
    intro b hb
    rw [a3] at hb
    have := List.eq_of_mem_replicate hb
    omega
  have hp : bound_to_insert streamEnv 97 = true := by decide
  rw [typein_writes_eq streamEnv 512 S 97 a2 hb (by rw [a3, List.length_replicate]; omega),
    a3, List.takeWhile_replicate, if_pos hp, List.length_replicate]

end Readline
